import Mathlib

/-!
# Verification of the analysis-toolkit core

Shallow embedding of the two algorithmic subsystems of the repository:

* the multi-provider consensus aggregator
  (`src/builders/collaborative-analyzer.ts`, class `CollaborativeAnalyzer`), and
* the pluggable-strategy result cache (`CacheManager` in the cache-manager
  source file), together with its deterministic key canonicalization
  (`generateKey` / `normalizeInputs` / `normalizeOptions`).

JavaScript objects that are mutated through shared references (the
`aiAnalysis` object of an `AnalysisResult`) are modelled with an explicit
heap: `aiAnalysis` is an index into a list of `AiCell`s, and the merge
procedures return an updated heap.  Numbers are modelled as `ℚ`
(idealized, exact arithmetic in place of IEEE doubles).  Fallible code
returns `Except`/`Option`.
-/

namespace AnalysisToolkit

set_option maxHeartbeats 1000000
set_option maxRecDepth 100000

/-! ## Data model (from `src/types/index.ts`)

`AIAnalysisResult` has fields `summary`, `keyPoints`, `sentiment`, `tone`,
`themes` (all required).  `AnalysisResult` has `status`, `metadata.error?`,
`sections?`, `recommendations?` and `aiAnalysis?`.  Only the fields the
consensus code reads are modelled; `aiAnalysis` is a heap reference so
that the shallow-spread sharing of the source is captured. -/

/-- `AIAnalysisResult` of `src/types/index.ts` (the fields the consensus
code reads and writes). -/
structure AiCell where
  summary : String
  keyPoints : List String
  sentiment : String
  tone : String
  themes : List String
deriving Repr, DecidableEq

/-- `Recommendation` of `src/types/index.ts`: the merge code keys on
`title`; the remaining fields are collapsed into `description`. -/
structure Reco where
  title : String
  description : String
deriving Repr, DecidableEq

/-- `AnalysisResult` of `src/types/index.ts`, restricted to the fields the
consensus code observes.  `aiAnalysis` is a reference into the heap of
`AiCell`s; `error` models `metadata.error`. -/
structure AnalysisResult where
  status : String
  error : Option String
  sections : Option (List String)
  recommendations : Option (List Reco)
  aiAnalysis : Option Nat
deriving Repr, DecidableEq

instance : Inhabited AnalysisResult :=
  ⟨{ status := "", error := none, sections := none,
     recommendations := none, aiAnalysis := none }⟩

/-- The heap of `AIAnalysisResult` objects; an `aiAnalysis` field is an
index into it.  Two results whose `aiAnalysis` indices are equal share one
mutable object, exactly as two JS references to one object do. -/
abbrev Heap := List AiCell

/-- Dereference an `aiAnalysis` pointer. -/
def heapGet (h : Heap) (r : Nat) : Option AiCell := h.get? r

/-- Overwrite a heap cell (JS mutation of the shared object). -/
def heapSet (h : Heap) (r : Nat) (c : AiCell) : Heap := h.set r c

/-- `result.aiAnalysis` dereferenced: the cell a result's `aiAnalysis`
reference points to, if any. -/
def aiOf (h : Heap) (r : AnalysisResult) : Option AiCell :=
  r.aiAnalysis.bind (heapGet h)

/-! ## Kernel-reducible rational arithmetic

Core `Rat.add`/`Rat.mul`/`Rat.div` are `irreducible`, so a concrete run of
the model could not be evaluated by `decide`.  The model therefore uses
the equivalent operations below, built from `mkRat` (which does reduce);
`qadd_eq_add` … `qdiv_eq_div` prove them equal to `+`, `-`, `*`, `/`. -/

/-- Exact rational addition (equal to `+` by `qadd_eq_add`). -/
def qadd (a b : ℚ) : ℚ := mkRat (a.num * b.den + b.num * a.den) (a.den * b.den)

/-- Exact rational subtraction (equal to `-` by `qsub_eq_sub`). -/
def qsub (a b : ℚ) : ℚ := qadd a (-b)

/-- Exact rational multiplication (equal to `*` by `qmul_eq_mul`). -/
def qmul (a b : ℚ) : ℚ := mkRat (a.num * b.num) (a.den * b.den)

/-- Exact rational inverse (equal to `·⁻¹` by `qinv_eq_inv`). -/
def qinv (b : ℚ) : ℚ :=
  if 0 < b.num then mkRat b.den b.num.toNat
  else if b.num < 0 then mkRat (-(b.den : Int)) b.num.natAbs
  else 0

/-- Exact rational division (equal to `/` by `qdiv_eq_div`).  JS division
by zero yields `Infinity`/`NaN` where the model yields `0`; theorems that
depend on a quotient therefore assume a nonzero divisor. -/
def qdiv (a b : ℚ) : ℚ := qmul a (qinv b)

/-! ## JS helpers: insertion-order maps and stable sort

`sentimentScores[s] = (sentimentScores[s] || 0) + w` on a JS object /
`Map.set` keeps an existing key in place and appends a new key at the end;
`Object.entries` / `Map.entries` iterate in that insertion order.
`Array.prototype.sort` with comparator `(a, b) => b[1] - a[1]` is a stable
descending sort by value (V8's sort is stable), which the stable insertion
sort below reproduces. -/

/-- JS `map[k] = (map[k] || 0) + w` over an insertion-ordered association
list with `ℚ` values. -/
def bumpQ : List (String × ℚ) → String → ℚ → List (String × ℚ)
  | [], k, w => [(k, w)]
  | (k', v) :: rest, k, w =>
      if k' = k then (k', qadd v w) :: rest else (k', v) :: bumpQ rest k w

/-- JS `map.set(k, (map.get(k) || 0) + 1)` over an insertion-ordered
association list with `Nat` counts. -/
def bumpN : List (String × Nat) → String → List (String × Nat)
  | [], k => [(k, 1)]
  | (k', v) :: rest, k =>
      if k' = k then (k', v + 1) :: rest else (k', v) :: bumpN rest k

/-- First binding of a key in an association list. -/
def alistGet {β : Type} (m : List (String × β)) (k : String) : Option β :=
  (m.find? (fun p => p.1 == k)).map (·.2)

/-- Stable insert for insertion sort: the new element `x` goes after every
existing element `y` with `keep y x` (so equal elements keep their
original relative order, as in JS's stable sort). -/
def insertKeep {α : Type} (keep : α → α → Bool) (x : α) : List α → List α
  | [] => [x]
  | y :: ys => if keep y x then y :: insertKeep keep x ys else x :: y :: ys

/-- Stable insertion sort; with `keep y x := cmp(y,x) ≤ 0` it reproduces
JS `Array.prototype.sort(cmp)` for a consistent comparator. -/
def stableSortBy {α : Type} (keep : α → α → Bool) (l : List α) : List α :=
  l.foldl (fun acc x => insertKeep keep x acc) []

/-- JS `entries.sort((a, b) => b[1] - a[1])`: stable descending sort of
`(key, weight)` pairs by weight. -/
def sortDescQ (l : List (String × ℚ)) : List (String × ℚ) :=
  stableSortBy (fun y x => decide (x.2 ≤ y.2)) l

/-- JS `entries.sort((a, b) => b[1] - a[1])` on vote counts. -/
def sortDescN (l : List (String × Nat)) : List (String × Nat) :=
  stableSortBy (fun y x => decide (x.2 ≤ y.2)) l

/-- JS `entries.sort((a, b) => b[1].weight - a[1].weight)` on the
recommendation accumulator. -/
def sortDescRec (l : List (String × Reco × ℚ)) : List (String × Reco × ℚ) :=
  stableSortBy (fun y x => decide (x.2.2 ≤ y.2.2)) l

/-- `Math.max(...weights)` (`0` for the empty list, which the source never
passes: callers guarantee at least one successful provider). -/
def maxQ : List ℚ → ℚ
  | [] => 0
  | x :: xs => xs.foldl max x

/-- `weights.indexOf(Math.max(...weights))`: first index holding the
maximal weight. -/
def idxOfMax (l : List ℚ) : Nat := l.findIdx (fun w => w == maxQ l)

/-- `topSentiment || 'neutral'`. -/
def orNeutral : Option String → String
  | some s => if s = "" then "neutral" else s
  | none => "neutral"

/-! ## ConsensusConfig (`collaborative-analyzer.ts` lines 3–7) -/

/-- `ConsensusConfig.method`. -/
inductive Method where
  | weightedAverage
  | voting
  | expertSelection
deriving Repr, DecidableEq

/-- `ConsensusConfig.conflictResolution`. -/
inductive ConflictMethod where
  | expertReview
  | highestConfidence
  | weightedMerge
deriving Repr, DecidableEq

/-- `ConsensusConfig`. -/
structure ConsensusConfig where
  method : Method
  requireAgreement : Option ℚ
  conflictResolution : Option ConflictMethod
deriving Repr, DecidableEq

/-! ## Merge procedures (`collaborative-analyzer.ts` lines 99–279)

Each procedure takes the heap, the successful results and their weights,
and returns the merged result together with the updated heap (the source
mutates the base result's shared `aiAnalysis` object in place). -/

/-- The sentiment-score accumulation of `weightedAverageConsensus`
(lines 117–123): `sentimentScores[s] = (sentimentScores[s] || 0) + w`
over the results, guarded by the truthiness of
`result.aiAnalysis?.sentiment` (a string is truthy iff nonempty). -/
def sentimentScores (h : Heap) (rz : List (AnalysisResult × ℚ)) :
    List (String × ℚ) :=
  rz.foldl (fun m rw =>
    match aiOf h rw.1 with
    | some c => if c.sentiment ≠ "" then bumpQ m c.sentiment rw.2 else m
    | none => m) []

/-- The key-point weight accumulation of `weightedAverageConsensus`
(lines 132–138). -/
def keyPointScores (h : Heap) (rz : List (AnalysisResult × ℚ)) :
    List (String × ℚ) :=
  rz.foldl (fun m rw =>
    match aiOf h rw.1 with
    | some c => c.keyPoints.foldl (fun m p => bumpQ m p rw.2) m
    | none => m) []

/-- The theme weight accumulation of `weightedAverageConsensus`
(lines 147–153). -/
def themeScores (h : Heap) (rz : List (AnalysisResult × ℚ)) :
    List (String × ℚ) :=
  rz.foldl (fun m rw =>
    match aiOf h rw.1 with
    | some c => c.themes.foldl (fun m t => bumpQ m t rw.2) m
    | none => m) []

/-- `allRecommendations.set(key, ...)` step of lines 165–176: an existing
title accumulates weight and keeps the first-seen recommendation object; a
new title is appended. -/
def bumpRec : List (String × Reco × ℚ) → Reco → ℚ → List (String × Reco × ℚ)
  | [], rec', w => [(rec'.title, rec', w)]
  | (k, r0, v) :: rest, rec', w =>
      if k = rec'.title then (k, r0, qadd v w) :: rest
      else (k, r0, v) :: bumpRec rest rec' w

/-- Recommendation merge of `weightedAverageConsensus` (lines 161–184):
runs only when some result's `recommendations` field is present (in JS an
empty array is truthy, so `Option` presence is the test); keeps entries
with accumulated weight `> 0.3`, sorts them descending and takes 10. -/
def recMerge (base : AnalysisResult)
    (results : List AnalysisResult) (rz : List (AnalysisResult × ℚ)) :
    AnalysisResult :=
  if results.any (fun r => r.recommendations.isSome) then
    let m := rz.foldl (fun m rw =>
      (rw.1.recommendations.getD []).foldl
        (fun m rec' => bumpRec m rec' rw.2) m) []
    { base with
      recommendations :=
        some (((sortDescRec (m.filter (fun e => mkRat 3 10 < e.2.2))).take 10).map
          (fun e => e.2.1)) }
  else base

/-- `weightedAverageConsensus` (lines 102–187).  Weights are normalized by
their sum; the max-weight provider's result is shallow-copied as base; the
merged sentiment / key points / themes are written into the base's shared
`aiAnalysis` heap cell; merged recommendations are written to the copy's
own field. -/
def weightedAverageConsensus (h : Heap) (results : List AnalysisResult)
    (weights : List ℚ) : AnalysisResult × Heap :=
  let total := weights.foldl qadd 0
  let normalized := weights.map (fun w => qdiv w total)
  let maxIdx := idxOfMax weights
  let base := results.getD maxIdx default
  let rz := results.zip normalized
  match base.aiAnalysis with
  | some ref =>
      match heapGet h ref with
      | some cell =>
          let topSent := orNeutral ((sortDescQ (sentimentScores h rz)).head?.map (·.1))
          let kps := ((sortDescQ (keyPointScores h rz)).take 5).map (·.1)
          let ths := ((sortDescQ (themeScores h rz)).take 5).map (·.1)
          let h1 := heapSet h ref
            { cell with sentiment := topSent, keyPoints := kps, themes := ths }
          (recMerge base results rz, h1)
      | none => (recMerge base results rz, h)
  | none => (recMerge base results rz, h)

/-- The sentiment vote count of `votingConsensus` (lines 197–203): one
vote per result with a truthy `aiAnalysis?.sentiment`. -/
def sentimentVotes (h : Heap) (results : List AnalysisResult) :
    List (String × Nat) :=
  results.foldl (fun m r =>
    match aiOf h r with
    | some c => if c.sentiment ≠ "" then bumpN m c.sentiment else m
    | none => m) []

/-- The key-point vote count of `votingConsensus` (lines 219–222): every
occurrence of a point in any result's `keyPoints` list adds one vote. -/
def keyPointVotes (h : Heap) (results : List AnalysisResult) :
    List (String × Nat) :=
  results.foldl (fun m r =>
    match aiOf h r with
    | some c => c.keyPoints.foldl (fun m p => bumpN m p) m
    | none => m) []

/-- The theme vote count of `votingConsensus` (lines 224–226). -/
def themeVotes (h : Heap) (results : List AnalysisResult) :
    List (String × Nat) :=
  results.foldl (fun m r =>
    match aiOf h r with
    | some c => c.themes.foldl (fun m t => bumpN m t) m
    | none => m) []

/-- `votingConsensus` (lines 192–241).  `results[0]` is shallow-copied as
base; `majorityThreshold = results.length / 2` (JS float division); a key
point / theme is kept iff its vote count is `≥` that threshold; the
results are written into the base's shared `aiAnalysis` heap cell. -/
def votingConsensus (h : Heap) (results : List AnalysisResult) :
    AnalysisResult × Heap :=
  let base := results.headD default
  match base.aiAnalysis with
  | some ref =>
      match heapGet h ref with
      | some cell =>
          let topSent := orNeutral ((sortDescN (sentimentVotes h results)).head?.map (·.1))
          let thr : ℚ := qdiv (results.length : ℚ) 2
          let kps := ((keyPointVotes h results).filter
            (fun e => decide (thr ≤ (e.2 : ℚ)))).map (·.1)
          let ths := ((themeVotes h results).filter
            (fun e => decide (thr ≤ (e.2 : ℚ)))).map (·.1)
          let h1 := heapSet h ref
            { cell with sentiment := topSent, keyPoints := kps, themes := ths }
          (base, h1)
      | none => (base, h)
  | none => (base, h)

/-- `expertSelectionConsensus` (lines 246–279).  The max-weight provider's
result is the expert base; up to 3 key points absent from the expert's
current key-point set, scanned over the other providers in order (without
deduplicating the additions themselves), are appended into the expert's
shared `aiAnalysis` heap cell. -/
def expertSelectionConsensus (h : Heap) (results : List AnalysisResult)
    (weights : List ℚ) : AnalysisResult × Heap :=
  let maxIdx := idxOfMax weights
  let expert := results.getD maxIdx default
  let others := (results.enum.filter (fun p => p.1 ≠ maxIdx)).map (·.2)
  match expert.aiAnalysis with
  | some ref =>
      match heapGet h ref with
      | some cell =>
          if others.length > 0 then
            let additional := others.foldl (fun acc r =>
              match aiOf h r with
              | some c => c.keyPoints.foldl (fun acc p =>
                  if p ∉ cell.keyPoints ∧ acc.length < 3 then acc ++ [p] else acc) acc
              | none => acc) []
            if additional ≠ [] then
              (expert, heapSet h ref
                { cell with keyPoints := cell.keyPoints ++ additional })
            else (expert, h)
          else (expert, h)
      | none => (expert, h)
  | none => (expert, h)

/-! ## Agreement scoring and conflict resolution
(`collaborative-analyzer.ts` lines 281–376) -/

/-- Jaccard overlap of two deduplicated theme lists (lines 310–312):
`|A ∩ B| / |A ∪ B|` computed exactly as the source's set operations. -/
def jaccard (a b : List String) : ℚ :=
  let inter := a.filter (fun x => x ∈ b)
  let union := a ++ b.filter (fun x => x ∉ a)
  qdiv (inter.length : ℚ) (union.length : ℚ)

/-- The double loop of lines 308–314: sum of `jaccard` over all unordered
pairs, in order. -/
def pairwiseJaccard : List (List String) → ℚ
  | [] => 0
  | a :: rest => qadd (rest.foldl (fun s b => qadd s (jaccard a b)) 0) (pairwiseJaccard rest)

/-- `calculateAgreement` (lines 284–320).  Sentiments are the defined
`aiAnalysis?.sentiment` values (the source filters `!== undefined`, so an
empty string would be kept); theme sets are the deduplicated theme lists
of size `> 0`. -/
def calculateAgreement (h : Heap) (results : List AnalysisResult) : ℚ :=
  if results.length < 2 then 1
  else
    let sentiments := results.filterMap (fun r => (aiOf h r).map (·.sentiment))
    let s1 : Option ℚ :=
      if sentiments.length > 1 then
        some (qdiv (qadd (qsub (sentiments.length : ℚ) (sentiments.dedup.length : ℚ)) 1)
          (sentiments.length : ℚ))
      else none
    let themeSets := (results.map (fun r =>
      (((aiOf h r).map (·.themes)).getD []).dedup)).filter (fun s => s.length > 0)
    let s2 : Option ℚ :=
      if themeSets.length > 1 then
        some (qdiv (pairwiseJaccard themeSets)
          (qdiv (qmul (themeSets.length : ℚ) (qsub (themeSets.length : ℚ) 1)) 2))
      else none
    let score := qadd (s1.getD 0) (s2.getD 0)
    let comparisons : Nat := (if s1.isSome then 1 else 0) + (if s2.isSome then 1 else 0)
    if comparisons > 0 then qdiv score (comparisons : ℚ) else 1

/-- The seven completeness checks of `calculateConfidenceScore`
(lines 360–376).  In the source each passing check increments `score` and
`factors` together, so both always equal the number of passing checks. -/
def confidenceChecks (h : Heap) (r : AnalysisResult) : List Bool :=
  [ ((aiOf h r).map (·.summary)).getD "" ≠ "",
    ((aiOf h r).map (·.keyPoints)).getD [] ≠ [],
    ((aiOf h r).map (·.themes)).getD [] ≠ [],
    r.recommendations.getD [] ≠ [],
    r.sections.getD [] ≠ [],
    r.status = "completed",
    r.error.getD "" = "" ]

/-- `calculateConfidenceScore` (lines 360–376): `score / factors` where
both are the count of passing checks (`0` when no check passes). -/
def calculateConfidenceScore (h : Heap) (r : AnalysisResult) : ℚ :=
  let factors := ((confidenceChecks h r).filter id).length
  let score := factors
  if factors > 0 then qdiv (score : ℚ) (factors : ℚ) else 0

/-- `resolveConflicts` (lines 325–355).  `highest-confidence` selects the
first result whose weight-scaled confidence strictly exceeds all earlier
ones (fold with strict `>` against an initial best of `0`, initial index
`0`); `weighted-merge` re-runs `weightedAverageConsensus`;
`expert-review` re-runs `expertSelectionConsensus`. -/
def resolveConflicts (h : Heap) (results : List AnalysisResult)
    (weights : List ℚ) : ConflictMethod → AnalysisResult × Heap
  | .highestConfidence =>
      let best := results.enum.foldl (fun acc ir =>
        let score := qmul (calculateConfidenceScore h ir.2) (weights.getD ir.1 0)
        if acc.2 < score then (ir.1, score) else acc) ((0 : Nat), (0 : ℚ))
      (results.getD best.1 default, h)
  | .weightedMerge => weightedAverageConsensus h results weights
  | .expertReview => expertSelectionConsensus h results weights

/-! ## The aggregator entry point (`analyze`, lines 26–97) -/

/-- A value stored in the dynamically-built `consensusMetadata` object. -/
inductive MetaVal where
  | num (q : ℚ)
  | bool (b : Bool)
deriving Repr, DecidableEq

/-- The error thrown at line 47 when no provider succeeded
(`new Error('All providers failed to analyze content')`, which the spec
names `AllProvidersFailed`). -/
inductive AnalyzeError where
  | allProvidersFailed
deriving Repr, DecidableEq

/-- The object `{...consensusResult, providerResults, consensusMetadata}`
returned at lines 92–96, together with the final heap (so the shared
`aiAnalysis` cells can be read back). -/
structure Outcome where
  merged : AnalysisResult
  providerResults : List AnalysisResult
  consensusMetadata : List (String × MetaVal)
  heap : Heap
deriving Repr, DecidableEq

/-- A provider's settled response: `{result, weight, success}` of
lines 31–39.  A thrown provider error is caught and recorded as
`success: false, result: null`, so a response is modelled as the optional
result plus the weight. -/
abbrev ProviderResponse := Option AnalysisResult × ℚ

/-- The successful responses (`providerResponses.filter(r => r.success &&
r.result)`, line 44; a present result is a truthy object). -/
def successfulResponses (responses : List ProviderResponse) :
    List ProviderResponse :=
  responses.filter (fun r => r.1.isSome)

/-- Dispatch on `this.consensus.method` (lines 58–70; the union type is
closed, so the `default` branch of the source switch is unreachable). -/
def applyMethod (m : Method) (h : Heap) (results : List AnalysisResult)
    (weights : List ℚ) : AnalysisResult × Heap :=
  match m with
  | .weightedAverage => weightedAverageConsensus h results weights
  | .voting => votingConsensus h results
  | .expertSelection => expertSelectionConsensus h results weights

/-- `CollaborativeAnalyzer.analyze` (lines 26–97) after the parallel
fan-in: takes the settled provider responses, filters the successes,
throws `AllProvidersFailed` when none succeeded, applies the consensus
method, and — when `requireAgreement` is truthy (a nonzero number) —
computes the agreement score on the (already mutated) provider results,
sets `lowAgreement` and re-resolves via `conflictResolution` when the
score is below the bar.  The returned metadata object carries exactly the
keys the source wrote. -/
def analyze (cfg : ConsensusConfig) (h : Heap)
    (responses : List ProviderResponse) : Except AnalyzeError Outcome :=
  let succ := successfulResponses responses
  if succ.isEmpty then .error .allProvidersFailed
  else
    let results := succ.filterMap (·.1)
    let weights := succ.map (·.2)
    let p0 := applyMethod cfg.method h results weights
    match cfg.requireAgreement with
    | some ra =>
        if ra ≠ 0 then
          let ag := calculateAgreement p0.2 results
          let md0 := [("agreementScore", MetaVal.num ag)]
          if ag < ra then
            let md1 := [("agreementScore", MetaVal.num ag),
                        ("lowAgreement", MetaVal.bool true)]
            match cfg.conflictResolution with
            | some cr =>
                let p1 := resolveConflicts p0.2 results weights cr
                .ok ⟨p1.1, results, md1, p1.2⟩
            | none => .ok ⟨p0.1, results, md1, p0.2⟩
          else .ok ⟨p0.1, results, md0, p0.2⟩
        else .ok ⟨p0.1, results, [], p0.2⟩
    | none => .ok ⟨p0.1, results, [], p0.2⟩

/-! ## Concrete sample data used by witnesses and counterexamples -/

/-- A minimal completed result pointing at heap cell `r`. -/
def mkResult (r : Nat) : AnalysisResult :=
  { status := "completed", error := none, sections := none,
    recommendations := none, aiAnalysis := some r }

/-- A minimal `aiAnalysis` cell. -/
def mkCell (s : String) (kp th : List String) : AiCell :=
  { summary := "s", keyPoints := kp, sentiment := s, tone := "", themes := th }

/-! ## Observation helpers for the voting claims -/

/-- `result.aiAnalysis?.keyPoints` as the list the source iterates
(`undefined` iterates as the empty list). -/
def kpList (h : Heap) (r : AnalysisResult) : List String :=
  ((aiOf h r).map (·.keyPoints)).getD []

/-- `result.aiAnalysis?.themes` as the list the source iterates. -/
def thList (h : Heap) (r : AnalysisResult) : List String :=
  ((aiOf h r).map (·.themes)).getD []

/-- The vote map accumulated over a flat list of items
(`map.set(item, (map.get(item) || 0) + 1)` in iteration order). -/
def votesOf (pts : List String) : List (String × Nat) :=
  pts.foldl (fun m p => bumpN m p) []

/-- The key points readable through a merged result's `aiAnalysis`
reference in the final heap. -/
def outKeyPoints (pr : AnalysisResult × Heap) : List String :=
  ((aiOf pr.2 pr.1).map (·.keyPoints)).getD []

/-- The themes readable through a merged result's `aiAnalysis` reference
in the final heap. -/
def outThemes (pr : AnalysisResult × Heap) : List String :=
  ((aiOf pr.2 pr.1).map (·.themes)).getD []

/-- Total number of occurrences of key point `p` across all provider
outputs (a provider listing `p` twice contributes two). -/
def kpOccurrences (h : Heap) (results : List AnalysisResult) (p : String) : Nat :=
  (results.flatMap (kpList h)).count p

/-- Total number of occurrences of theme `p` across all provider
outputs. -/
def thOccurrences (h : Heap) (results : List AnalysisResult) (p : String) : Nat :=
  (results.flatMap (thList h)).count p

/-- Number of providers whose key-point list contains `p` verbatim (the
quantity claim C5 speaks about). -/
def kpProviders (h : Heap) (results : List AnalysisResult) (p : String) : Nat :=
  (results.filter (fun r => decide (p ∈ kpList h r))).length

/-! ## CacheManager (cache-manager source, lines 354–808)

`CacheManager` stores entries in an `LRUCache` from the `lru-cache` npm
package, configured in the constructor (lines 388–414) with `max: 1000`,
`maxSize` = `maxSize` MB in bytes, a `sizeCalculation` over the entry,
`ttl`, `updateAgeOnGet: true` and `updateAgeOnHas: false`.  The package
is a dependency, not part of this repository; `Lru` below is modelled
from spec §4.2 (bounded LRU store, lazy TTL) refined by the package's
documented semantics for exactly these options: an item whose computed
size exceeds `maxSize` is not stored (the existing entry under that key
is deleted), eviction removes least-recently-used items until both caps
hold, a stale item (`age > ttl`) found by `get` is deleted and reported
as a miss, and `updateAgeOnGet: true` resets the age of an entry on
every successful `get`.  Entry values have an opaque type `V`; the entry
size (`JSON.stringify(entry).length`), the embedding function
(`generateEmbedding`, a char-histogram normalized by a real-valued
square root) and JS truthiness of values are parameters. -/

/-- `CacheConfig.strategy`. -/
inductive Strategy where
  | exact
  | semantic
  | fuzzy
deriving Repr, DecidableEq

/-- `CacheEntry` (lines 366–373): `key`, `value`, `timestamp`
(creation time), `hits`, optional `embedding`. -/
structure CacheEntry (V : Type) where
  key : String
  value : V
  timestamp : Nat
  hits : Nat
  embedding : Option (List ℚ)
deriving Repr, DecidableEq

/-- One slot of the LRU store: the entry, its computed size and its TTL
age start (`updateAgeOnGet` resets it). -/
structure LruItem (V : Type) where
  key : String
  entry : CacheEntry V
  size : Nat
  start : Nat
deriving Repr, DecidableEq

/-- The LRU store, least-recently-used first (evictions drop the head;
the most recent entry is last). -/
abbrev Lru (V : Type) := List (LruItem V)

/-- The constructor-fixed configuration plus the opaque collaborators. -/
structure CacheParams (V : Type) where
  strategy : Strategy
  ttl : Nat
  maxBytes : Nat
  maxCount : Nat
  threshold : ℚ
  embed : String → List ℚ
  entrySize : CacheEntry V → Nat
  truthy : V → Bool

/-- Constructor defaults (lines 388–402): `max: 1000` items,
`maxSize = maxSizeMB · 1024 · 1024` bytes. -/
def mkCacheParams {V : Type} (strategy : Strategy) (ttl maxSizeMB : Nat)
    (threshold : ℚ) (embed : String → List ℚ)
    (entrySize : CacheEntry V → Nat) (truthy : V → Bool) : CacheParams V :=
  { strategy := strategy, ttl := ttl, maxBytes := maxSizeMB * 1024 * 1024,
    maxCount := 1000, threshold := threshold, embed := embed,
    entrySize := entrySize, truthy := truthy }

/-- Total stored size of the LRU store. -/
def lruTotalSize {V : Type} (l : Lru V) : Nat := (l.map (·.size)).sum

/-- Both caps hold. -/
def lruFits {V : Type} (P : CacheParams V) (l : Lru V) : Bool :=
  decide (l.length ≤ P.maxCount) && decide (lruTotalSize l ≤ P.maxBytes)

/-- Evict least-recently-used items until both caps hold. -/
def evictLoop {V : Type} (P : CacheParams V) : Lru V → Lru V
  | [] => []
  | x :: rest =>
      if lruFits P (x :: rest) then x :: rest else evictLoop P rest

/-- Remove a key. -/
def lruDelete {V : Type} (k : String) (l : Lru V) : Lru V :=
  l.filter (fun x => !(x.key == k))

/-- Find a key's slot. -/
def lruFind {V : Type} (k : String) (l : Lru V) : Option (LruItem V) :=
  l.find? (fun x => x.key == k)

/-- `LRUCache.set`: an oversized item is not stored (and the key's
existing entry is dropped); otherwise the item is (re)inserted as most
recent and LRU eviction restores both caps. -/
def lruSet {V : Type} (P : CacheParams V) (now : Nat) (k : String)
    (e : CacheEntry V) (size : Nat) (l : Lru V) : Lru V :=
  if P.maxBytes < size then lruDelete k l
  else evictLoop P (lruDelete k l ++ [⟨k, e, size, now⟩])

/-- `LRUCache.get` with `ttl` and `updateAgeOnGet: true`: a stale item
(`age > ttl`) is deleted and missed; a fresh hit moves the item to most
recent and resets its age to `now`. -/
def lruGet {V : Type} (P : CacheParams V) (now : Nat) (k : String)
    (l : Lru V) : Option (CacheEntry V) × Lru V :=
  match lruFind k l with
  | none => (none, l)
  | some x =>
      if x.start + P.ttl < now then (none, lruDelete k l)
      else (some x.entry, lruDelete k l ++ [{ x with start := now }])

/-- `entry.hits++` on the entry stored in the cache (object mutation). -/
def lruBumpHits {V : Type} (k : String) (l : Lru V) : Lru V :=
  l.map (fun x =>
    if x.key == k then
      { x with entry := { x.entry with hits := x.entry.hits + 1 } }
    else x)

/-- `Array.from(this.cache.keys())`: most-recently-used first. -/
def lruKeysMRU {V : Type} (l : Lru V) : List String := (l.map (·.key)).reverse

/-- The `CacheManager` state: the LRU store, the semantic `embeddings`
map, and the `stats` counters the claims observe. -/
structure CMState (V : Type) where
  lru : Lru V
  embeddings : List (String × List ℚ)
  hits : Nat
  misses : Nat
  errors : Nat
  total : Nat
deriving Repr, DecidableEq

/-- Fresh manager (constructor / `clear`, lines 797–807). -/
def cmInit {V : Type} : CMState V := ⟨[], [], 0, 0, 0, 0⟩

/-- JS `Map.set`: replace in place, or append a new key. -/
def alistSet {β : Type} : List (String × β) → String → β → List (String × β)
  | [], k, v => [(k, v)]
  | (k0, v0) :: rest, k, v =>
      if k0 = k then (k, v) :: rest else (k0, v0) :: alistSet rest k v

/-- `CacheManager.set` (lines 460–481): build the entry (creation
`timestamp := now`, `hits := 0`), under the semantic strategy compute and
index the embedding, then store through the LRU cache with the computed
size.  (The model's embedding function is total, so the `catch` branch is
unreachable.) -/
def cmSet {V : Type} (P : CacheParams V) (now : Nat) (k : String) (v : V)
    (st : CMState V) : CMState V :=
  let emb := if P.strategy = .semantic then some (P.embed k) else none
  let e : CacheEntry V := ⟨k, v, now, 0, emb⟩
  let embs :=
    if P.strategy = .semantic then alistSet st.embeddings k (P.embed k)
    else st.embeddings
  { st with lru := lruSet P now k e (P.entrySize e) st.lru, embeddings := embs }

/-- `getExact` (lines 486–497): hit bumps the entry's and the store's hit
counters, miss bumps the miss counter. -/
def getExact {V : Type} (P : CacheParams V) (now : Nat) (k : String)
    (st : CMState V) : Option V × CMState V :=
  let r := lruGet P now k st.lru
  match r.1 with
  | some e =>
      (some e.value,
        { st with lru := lruBumpHits k r.2, hits := st.hits + 1 })
  | none => (none, { st with lru := r.2, misses := st.misses + 1 })

/-- `cosineSimilarity` (lines 593–602): `0` on length mismatch, else the
plain dot product (the source assumes normalized vectors). -/
def cosineSimilarity (a b : List ℚ) : ℚ :=
  if a.length ≠ b.length then 0
  else (a.zip b).foldl (fun s p => qadd s (qmul p.1 p.2)) 0

/-- The best-match scan of `getSemantic` (lines 510–521): track
`bestSimilarity` (initially 0) and `bestMatch`; a candidate wins iff its
similarity strictly exceeds the best so far and meets the threshold. -/
def scanBest (θ : ℚ) (q : List ℚ) (embs : List (String × List ℚ)) :
    Option String :=
  (embs.foldl (fun acc e =>
    let s := cosineSimilarity q e.2
    if acc.1 < s ∧ θ ≤ s then (s, some e.1) else acc)
    ((0 : ℚ), (none : Option String))).2

/-- The semantic phase of `getSemantic` (lines 507–533) after an exact
miss: scan the embeddings index, then fetch the best match from the LRU
store (which may meanwhile have dropped or expired it — then a miss). -/
def semanticScan {V : Type} (P : CacheParams V) (now : Nat) (k : String)
    (st : CMState V) : Option V × CMState V :=
  match scanBest P.threshold (P.embed k) st.embeddings with
  | some bk =>
      let g := lruGet P now bk st.lru
      match g.1 with
      | some e =>
          (some e.value,
            { st with lru := lruBumpHits bk g.2, hits := st.hits + 1 })
      | none => (none, { st with lru := g.2, misses := st.misses + 1 })
  | none => (none, { st with misses := st.misses + 1 })

/-- `getSemantic` (lines 502–534): `if (exactMatch) return exactMatch`
falls through to the semantic scan when the exact phase returned `null`
or a falsy cached value. -/
def getSemantic {V : Type} (P : CacheParams V) (now : Nat) (k : String)
    (st : CMState V) : Option V × CMState V :=
  let r := getExact P now k st
  match r.1 with
  | some v => if P.truthy v then r else semanticScan P now k r.2
  | none => semanticScan P now k r.2

/-- Matching prefix length with `break` on first mismatch
(lines 607–617). -/
def commonPrefixLen : List Char → List Char → Nat
  | a :: as, b :: bs => if a = b then commonPrefixLen as bs + 1 else 0
  | _, _ => 0

/-- `getHashSimilarity` (lines 607–620): `matchingChars / minLength`;
`none` models the `0 / 0 = NaN` result for an empty operand, which fails
every `>=` comparison. -/
def hashSimilarity (h1 h2 : String) : Option ℚ :=
  let n := min h1.length h2.length
  if n = 0 then none
  else some (qdiv (commonPrefixLen h1.data h2.data : ℚ) (n : ℚ))

/-- `key.split(':')`. -/
def splitColon (s : String) : List String := s.splitOn ":"

/-- Result of the fuzzy loop: a returned value/state, or a thrown
`TypeError` (from `undefined.length` when a key has fewer than three
`:`-separated segments), carrying the state mutated so far. -/
inductive FuzzyOut (V : Type) where
  | ret (v : Option V) (st : CMState V)
  | thrown (st : CMState V)
deriving Repr, DecidableEq

/-- The state carried by a fuzzy-loop outcome. -/
def fuzzyOutState {V : Type} : FuzzyOut V → CMState V
  | .ret _ st => st
  | .thrown st => st

/-- The candidate loop of `getFuzzy` (lines 544–568), iterating the key
snapshot in most-recently-used order: same `type` segment, then
hash-prefix similarity against the threshold; the first qualifying key
still present in the store wins.  A qualifying key whose entry has
meanwhile expired is deleted by the inner `get` and the loop continues. -/
def fuzzyLoop {V : Type} (P : CacheParams V) (now : Nat)
    (qp : List String) : List String → CMState V → FuzzyOut V
  | [], st => .ret none { st with misses := st.misses + 1 }
  | ck :: rest, st =>
      let cp := splitColon ck
      if qp.get? 1 = cp.get? 1 then
        match qp.get? 2, cp.get? 2 with
        | some h1, some h2 =>
            (match hashSimilarity h1 h2 with
             | some sim =>
                if P.threshold ≤ sim then
                  let g := lruGet P now ck st.lru
                  match g.1 with
                  | some e =>
                      .ret (some e.value)
                        { st with lru := lruBumpHits ck g.2,
                                  hits := st.hits + 1 }
                  | none => fuzzyLoop P now qp rest { st with lru := g.2 }
                else fuzzyLoop P now qp rest st
             | none => fuzzyLoop P now qp rest st)
        | _, _ => .thrown st
      else fuzzyLoop P now qp rest st

/-- `getFuzzy` (lines 539–569): exact phase first, then the candidate
loop over the key snapshot. -/
def getFuzzy {V : Type} (P : CacheParams V) (now : Nat) (k : String)
    (st : CMState V) : FuzzyOut V :=
  let r := getExact P now k st
  match r.1 with
  | some v =>
      if P.truthy v then .ret (some v) r.2
      else fuzzyLoop P now (splitColon k) (lruKeysMRU r.2.lru) r.2
  | none => fuzzyLoop P now (splitColon k) (lruKeysMRU r.2.lru) r.2

/-- `CacheManager.get` (lines 437–455): count the lookup, dispatch on the
strategy; a thrown error is caught, counted, and degraded to a miss
result (without touching the hit/miss counters). -/
def cmGet {V : Type} (P : CacheParams V) (now : Nat) (k : String)
    (st : CMState V) : Option V × CMState V :=
  let st0 := { st with total := st.total + 1 }
  match P.strategy with
  | .exact => getExact P now k st0
  | .semantic => getSemantic P now k st0
  | .fuzzy =>
      match getFuzzy P now k st0 with
      | .ret v st' => (v, st')
      | .thrown st' => (none, { st' with errors := st'.errors + 1 })

/-- Char-list prefix test (for `String.includes`). -/
def hasPrefixChars : List Char → List Char → Bool
  | [], _ => true
  | _ :: _, [] => false
  | a :: as, b :: bs => a == b && hasPrefixChars as bs

/-- `key.includes(pattern)`: the pattern occurs contiguously in the
key. -/
def hasInfixChars : List Char → List Char → Bool
  | p, [] => hasPrefixChars p []
  | p, x :: rest => hasPrefixChars p (x :: rest) || hasInfixChars p rest

/-- `invalidate` (lines 669–685): clear everything, or delete the keys
containing the pattern from the store and the embeddings index. -/
def cmInvalidate {V : Type} (pat : Option String) (st : CMState V) :
    CMState V :=
  match pat with
  | none => { st with lru := [], embeddings := [] }
  | some p =>
      { st with
        lru := st.lru.filter (fun x => !(hasInfixChars p.data x.key.data)),
        embeddings :=
          st.embeddings.filter (fun e => !(hasInfixChars p.data e.1.data)) }

/-- One mutating call on the manager. -/
inductive CacheOp (V : Type) where
  | set (now : Nat) (k : String) (v : V)
  | get (now : Nat) (k : String)
  | invalidate (pat : Option String)
  | clear

/-- Apply one call. -/
def cmStep {V : Type} (P : CacheParams V) (st : CMState V) :
    CacheOp V → CMState V
  | .set now k v => cmSet P now k v st
  | .get now k => (cmGet P now k st).2
  | .invalidate pat => cmInvalidate pat st
  | .clear => cmInit

/-- Run a call sequence from a fresh manager. -/
def cmRun {V : Type} (P : CacheParams V) (ops : List (CacheOp V)) :
    CMState V :=
  ops.foldl (cmStep P) cmInit

/-- Both resource caps of the store. -/
def capsLru {V : Type} (P : CacheParams V) (l : Lru V) : Prop :=
  l.length ≤ P.maxCount ∧ lruTotalSize l ≤ P.maxBytes

/-- The key is present and unexpired at `now` (decidably stated, for
witnesses). -/
def freshIn {V : Type} (P : CacheParams V) (now : Nat) (l : Lru V)
    (ck : String) : Bool :=
  match lruFind ck l with
  | some x => !(decide (x.start + P.ttl < now))
  | none => false

/-- Concrete exact-strategy parameters used by witnesses and
counterexamples (`ttl = 10`, unit sizes, truthy values). -/
def pExact : CacheParams Nat :=
  { strategy := .exact, ttl := 10, maxBytes := 1000000, maxCount := 1000,
    threshold := mkRat 17 20, embed := fun _ => [],
    entrySize := fun _ => 1, truthy := fun _ => true }

/-- The same parameters under the fuzzy strategy. -/
def pFuzzy : CacheParams Nat := { pExact with strategy := .fuzzy }

/-- Semantic-strategy parameters whose embedding gives the query `"q"`
cosine similarity exactly equal to the threshold `1/2` against every
stored key. -/
def pSemantic : CacheParams Nat :=
  { pExact with
    strategy := .semantic
    threshold := mkRat 1 2
    embed := fun s => if s = "q" then [1] else [mkRat 1 2] }

/-! ## Key canonicalization and fingerprinting
(`generateKey` / `normalizeInputs` / `normalizeOptions`,
cache-manager source lines 419–432 and 625–664)

`generateKey` hashes `JSON.stringify({type, inputs, options})` with
Node's SHA-256 and returns `analysis:{type}:{hex}` (braces here denote
JS template interpolation).  The dynamic `inputs`/`options` values are
modelled by the JSON-like type `JVal`; numeric leaves are restricted to
integers (JS float formatting is irrelevant to the claims).  SHA-256 is
implemented below over `Nat` byte lists so concrete fingerprints can be
computed by `decide`; `crypto.createHash('sha256').update(s)` consumes
the UTF-8 encoding of the string. -/

/-- A JS value as stored in `request.inputs` / `request.options`. -/
inductive JVal where
  | str (s : String)
  | num (n : Int)
  | bool (b : Bool)
  | null
  | arr (elems : List JVal)
  | obj (entries : List (String × JVal))

/-- Truncate to 32 bits. -/
def w32 (x : Nat) : Nat := x % 4294967296

/-- 32-bit right rotation of `x < 2^32`. -/
def rotr32 (k x : Nat) : Nat := x / 2 ^ k + x % 2 ^ k * 2 ^ (32 - k)

/-- Logical right shift. -/
def shr32 (k x : Nat) : Nat := x / 2 ^ k

/-- Three-way xor. -/
def xor3 (a b c : Nat) : Nat := Nat.xor (Nat.xor a b) c

/-- 32-bit complement of `x < 2^32`. -/
def not32 (x : Nat) : Nat := Nat.xor x 4294967295

/-- The SHA-256 round constants. -/
def sha256K : List Nat :=
  [1116352408, 1899447441, 3049323471, 3921009573, 961987163,
   1508970993, 2453635748, 2870763221, 3624381080, 310598401,
   607225278, 1426881987, 1925078388, 2162078206, 2614888103,
   3248222580, 3835390401, 4022224774, 264347078, 604807628,
   770255983, 1249150122, 1555081692, 1996064986, 2554220882,
   2821834349, 2952996808, 3210313671, 3336571891, 3584528711,
   113926993, 338241895, 666307205, 773529912, 1294757372,
   1396182291, 1695183700, 1986661051, 2177026350, 2456956037,
   2730485921, 2820302411, 3259730800, 3345764771, 3516065817,
   3600352804, 4094571909, 275423344, 430227734, 506948616,
   659060556, 883997877, 958139571, 1322822218, 1537002063,
   1747873779, 1955562222, 2024104815, 2227730452, 2361852424,
   2428436474, 2756734187, 3204031479, 3329325298]

/-- The SHA-256 initial hash state. -/
def sha256H0 : List Nat :=
  [1779033703, 3144134277, 1013904242, 2773480762,
   1359893119, 2600822924, 528734635, 1541459225]

/-- Big-endian 8-byte encoding of the bit length. -/
def beBytes8 (n : Nat) : List Nat :=
  [n / 2 ^ 56 % 256, n / 2 ^ 48 % 256, n / 2 ^ 40 % 256, n / 2 ^ 32 % 256,
   n / 2 ^ 24 % 256, n / 2 ^ 16 % 256, n / 2 ^ 8 % 256, n % 256]

/-- SHA-256 message padding. -/
def sha256Pad (msg : List Nat) : List Nat :=
  let padZeros := (55 - msg.length % 64 + 64) % 64
  msg ++ [0x80] ++ List.replicate padZeros 0 ++ beBytes8 (msg.length * 8)

/-- Split into 64-byte blocks (the fuel argument makes the recursion
structural, so concrete runs reduce in the kernel). -/
def chunksAux : Nat → List Nat → List (List Nat)
  | 0, _ => []
  | _, [] => []
  | fuel + 1, x :: rest =>
      (x :: rest).take 64 :: chunksAux fuel ((x :: rest).drop 64)

/-- Split a padded message into 64-byte blocks. -/
def chunks64 (l : List Nat) : List (List Nat) := chunksAux l.length l

/-- Big-endian 32-bit words from bytes. -/
def bytesToWords : List Nat → List Nat
  | b0 :: b1 :: b2 :: b3 :: rest =>
      (((b0 * 256 + b1) * 256 + b2) * 256 + b3) :: bytesToWords rest
  | _ => []

/-- Extend the 16 message words to 64 (message schedule). -/
def sha256Extend (ws : List Nat) : Nat → List Nat
  | 0 => ws
  | n + 1 =>
      let i := ws.length
      let w15 := ws.getD (i - 15) 0
      let w2 := ws.getD (i - 2) 0
      let w16 := ws.getD (i - 16) 0
      let w7 := ws.getD (i - 7) 0
      let s0 := xor3 (rotr32 7 w15) (rotr32 18 w15) (shr32 3 w15)
      let s1 := xor3 (rotr32 17 w2) (rotr32 19 w2) (shr32 10 w2)
      sha256Extend (ws ++ [w32 (w16 + s0 + w7 + s1)]) n

/-- The eight 32-bit working variables. -/
structure Sha8 where
  a : Nat
  b : Nat
  c : Nat
  d : Nat
  e : Nat
  f : Nat
  g : Nat
  h : Nat

/-- One SHA-256 compression round. -/
def sha256Round (st : Sha8) (kt wt : Nat) : Sha8 :=
  let s1 := xor3 (rotr32 6 st.e) (rotr32 11 st.e) (rotr32 25 st.e)
  let ch := Nat.xor (Nat.land st.e st.f) (Nat.land (not32 st.e) st.g)
  let t1 := w32 (st.h + s1 + ch + kt + wt)
  let s0 := xor3 (rotr32 2 st.a) (rotr32 13 st.a) (rotr32 22 st.a)
  let mj := xor3 (Nat.land st.a st.b) (Nat.land st.a st.c) (Nat.land st.b st.c)
  let t2 := w32 (s0 + mj)
  ⟨w32 (t1 + t2), st.a, st.b, st.c, w32 (st.d + t1), st.e, st.f, st.g⟩

/-- Compress one 64-byte block into the hash state. -/
def sha256Block (hs : List Nat) (block : List Nat) : List Nat :=
  let ws := sha256Extend (bytesToWords block) 48
  let init : Sha8 :=
    ⟨hs.getD 0 0, hs.getD 1 0, hs.getD 2 0, hs.getD 3 0,
     hs.getD 4 0, hs.getD 5 0, hs.getD 6 0, hs.getD 7 0⟩
  let fin := (sha256K.zip ws).foldl (fun st kw => sha256Round st kw.1 kw.2) init
  [w32 (hs.getD 0 0 + fin.a), w32 (hs.getD 1 0 + fin.b),
   w32 (hs.getD 2 0 + fin.c), w32 (hs.getD 3 0 + fin.d),
   w32 (hs.getD 4 0 + fin.e), w32 (hs.getD 5 0 + fin.f),
   w32 (hs.getD 6 0 + fin.g), w32 (hs.getD 7 0 + fin.h)]

/-- SHA-256 of a byte list, as eight 32-bit words. -/
def sha256 (msg : List Nat) : List Nat :=
  (chunks64 (sha256Pad msg)).foldl sha256Block sha256H0

/-- Lower-case hex digit. -/
def hexNibble (n : Nat) : Char :=
  if n < 10 then Char.ofNat (48 + n) else Char.ofNat (87 + n)

/-- Eight hex digits of a 32-bit word. -/
def wordHex (w : Nat) : List Char :=
  [hexNibble (w / 2 ^ 28 % 16), hexNibble (w / 2 ^ 24 % 16),
   hexNibble (w / 2 ^ 20 % 16), hexNibble (w / 2 ^ 16 % 16),
   hexNibble (w / 2 ^ 12 % 16), hexNibble (w / 2 ^ 8 % 16),
   hexNibble (w / 2 ^ 4 % 16), hexNibble (w % 16)]

/-- `crypto.createHash('sha256').update(bytes).digest('hex')`. -/
def sha256Hex (msg : List Nat) : String :=
  ⟨(sha256 msg).flatMap wordHex⟩

/-- UTF-8 encoding of one character. -/
def utf8Char (c : Char) : List Nat :=
  let n := c.toNat
  if n < 128 then [n]
  else if n < 2048 then [192 + n / 64, 128 + n % 64]
  else if n < 65536 then [224 + n / 4096, 128 + n / 64 % 64, 128 + n % 64]
  else [240 + n / 262144, 128 + n / 4096 % 64, 128 + n / 64 % 64, 128 + n % 64]

/-- UTF-8 encoding of a string (the default encoding of
`hash.update`). -/
def utf8Encode (s : String) : List Nat := s.data.flatMap utf8Char

/-- JSON string escaping of one character. -/
def jsonEscapeChar (c : Char) : List Char :=
  if c = '"' then ['\\', '"']
  else if c = '\\' then ['\\', '\\']
  else if c = '\n' then ['\\', 'n']
  else if c = '\r' then ['\\', 'r']
  else if c = '\t' then ['\\', 't']
  else if c.toNat = 8 then ['\\', 'b']
  else if c.toNat = 12 then ['\\', 'f']
  else if c.toNat < 32 then
    ['\\', 'u', '0', '0', hexNibble (c.toNat / 16), hexNibble (c.toNat % 16)]
  else [c]

/-- A JSON string literal. -/
def jsonQuote (s : String) : String :=
  "\"" ++ String.mk (s.data.flatMap jsonEscapeChar) ++ "\""

mutual

/-- `JSON.stringify`, with object keys in insertion order (the braces of
object syntax are written via escapes to keep them out of plain string
literals). -/
def jsonStringify : JVal → String
  | .str s => jsonQuote s
  | .num n => toString n
  | .bool true => "true"
  | .bool false => "false"
  | .null => "null"
  | .arr xs => "[" ++ String.intercalate "," (jsonStringifyList xs) ++ "]"
  | .obj kvs => "\x7b" ++ String.intercalate "," (jsonStringifyObj kvs) ++ "\x7d"

def jsonStringifyList : List JVal → List String
  | [] => []
  | v :: rest => jsonStringify v :: jsonStringifyList rest

def jsonStringifyObj : List (String × JVal) → List String
  | [] => []
  | (k, v) :: rest => (jsonQuote k ++ ":" ++ jsonStringify v) :: jsonStringifyObj rest

end

mutual

/-- JS `String(v)` as used by the default `Array.prototype.sort`
comparator: strings unchanged, numbers/booleans/null via `toString`,
arrays joined by commas (`null` joining as the empty string), plain
objects as `[object Object]`.  (Lean compares strings by code points;
JS by UTF-16 code units — these agree on the Basic Multilingual
Plane.) -/
def jsToString : JVal → String
  | .str s => s
  | .num n => toString n
  | .bool true => "true"
  | .bool false => "false"
  | .null => "null"
  | .arr xs => String.intercalate "," (jsElemStrings xs)
  | .obj _ => "[object Object]"

def jsElemStrings : List JVal → List String
  | [] => []
  | v :: rest =>
      (match v with
       | .null => ""
       | w => jsToString w) :: jsElemStrings rest

end

/-- The characters removed by JS `String.prototype.trim` (ASCII
whitespace, NBSP, BOM, and the line/paragraph separators; the exotic
Unicode space separators are irrelevant to the claims). -/
def jsSpace (c : Char) : Bool :=
  c.toNat = 32 || c.toNat = 9 || c.toNat = 10 || c.toNat = 13 ||
  c.toNat = 11 || c.toNat = 12 || c.toNat = 160 || c.toNat = 65279 ||
  c.toNat = 8232 || c.toNat = 8233

/-- JS `value.trim()`. -/
def jsTrim (s : String) : String :=
  ⟨((s.data.dropWhile jsSpace).reverse.dropWhile jsSpace).reverse⟩

/-- `[...value].sort()`: JS default sort, i.e. the stable sort by the
elements' string representations. -/
def jsSortArr (xs : List JVal) : List JVal :=
  stableSortBy (fun y x => decide (jsToString y ≤ jsToString x)) xs

/-- Sort object entries by key (`Object.keys(inputs).sort()` together
with the subsequent per-key lookup). -/
def sortEntriesByKey (kvs : List (String × JVal)) : List (String × JVal) :=
  stableSortBy (fun y x => decide (y.1 ≤ x.1)) kvs

/-- Keep the first binding of each key (JS objects cannot hold duplicate
keys; this makes the model total on association lists). -/
def dedupKeys : List (String × JVal) → List (String × JVal)
  | [] => []
  | (k, v) :: rest => (k, v) :: (dedupKeys rest).filter (fun e => !(e.1 == k))

mutual

/-- `normalizeInputs` (lines 625–652): sort keys, trim direct string
values, sort array values by their JS string representation (array
elements themselves are not normalized or recursed into), recurse into
nested plain objects, leave other values unchanged.  The source iterates
the sorted unique key list and reads `inputs[key]`; for unique keys this
equals normalizing the entries and then sorting them by key, which is
how the model states it. -/
def normField : JVal → JVal
  | .str s => .str (jsTrim s)
  | .arr xs => .arr (jsSortArr xs)
  | .obj kvs => .obj (sortEntriesByKey (dedupKeys (normEntries kvs)))
  | .num n => .num n
  | .bool b => .bool b
  | .null => .null

def normEntries : List (String × JVal) → List (String × JVal)
  | [] => []
  | (k, v) :: rest => (k, normField v) :: normEntries rest

end

/-- Top-level `normalizeInputs`. -/
def normalizeInputs (kvs : List (String × JVal)) : List (String × JVal) :=
  sortEntriesByKey (dedupKeys (normEntries kvs))

/-- `normalizeOptions` (lines 657–664): missing options normalize to the
empty object; otherwise the volatile `customPrompt` field is stripped
before normalizing. -/
def normalizeOptions (opts : Option (List (String × JVal))) :
    List (String × JVal) :=
  match opts with
  | none => []
  | some o => normalizeInputs (o.filter (fun e => !(e.1 == "customPrompt")))

/-- The part of `AnalysisRequest` that `generateKey` reads. -/
structure KeyRequest where
  type : String
  inputs : List (String × JVal)
  options : Option (List (String × JVal))

/-- `generateKey` (lines 419–432):
`analysis:{type}:{hex(sha256(JSON.stringify({type, inputs, options})))}`. -/
def generateKey (rq : KeyRequest) : String :=
  let keyData : JVal := .obj
    [("type", .str rq.type),
     ("inputs", .obj (normalizeInputs rq.inputs)),
     ("options", .obj (normalizeOptions rq.options))]
  "analysis:" ++ rq.type ++ ":" ++
    sha256Hex (utf8Encode (jsonStringify keyData))

mutual

/-- The difference relation of the amended C4: values may differ by
leading/trailing whitespace of directly-held string values, by
permutation of object entries (keys unique, as in JS objects), and by
permutation of array elements whose JS string representations are
pairwise distinct.  Values inside arrays are never normalized, so array
elements must be equal up to permutation. -/
inductive ValRel : JVal → JVal → Prop where
  | refl (v : JVal) : ValRel v v
  | str (a b : String) : jsTrim a = jsTrim b → ValRel (.str a) (.str b)
  | arr (xs ys : List JVal) : xs.Perm ys →
      xs.Pairwise (fun u v => jsToString u ≠ jsToString v) →
      ValRel (.arr xs) (.arr ys)
  | obj (kvs mid kvs' : List (String × JVal)) :
      EntriesRel kvs mid → mid.Perm kvs' → (kvs.map (·.1)).Nodup →
      ValRel (.obj kvs) (.obj kvs')

inductive EntriesRel : List (String × JVal) → List (String × JVal) → Prop where
  | nil : EntriesRel [] []
  | cons (k : String) (v w : JVal) (rest rest' : List (String × JVal)) :
      ValRel v w → EntriesRel rest rest' →
      EntriesRel ((k, v) :: rest) ((k, w) :: rest')

end

/-- The relation on whole `inputs` / `options` objects. -/
def ObjRel (l1 l2 : List (String × JVal)) : Prop :=
  ∃ mid, EntriesRel l1 mid ∧ mid.Perm l2 ∧ (l1.map (·.1)).Nodup

/-- The relation on optional `options` objects, after stripping the
volatile `customPrompt` field as `normalizeOptions` does. -/
def OptRel : Option (List (String × JVal)) →
    Option (List (String × JVal)) → Prop
  | none, none => True
  | some o1, some o2 =>
      ObjRel (o1.filter (fun e => !(e.1 == "customPrompt")))
        (o2.filter (fun e => !(e.1 == "customPrompt")))
  | _, _ => False

/-! ## The reducible rational operations agree with `+`, `-`, `*`, `/` -/

lemma qadd_eq_add (a b : ℚ) : qadd a b = a + b := by
  have ha : ((a.den : ℚ)) ≠ 0 := (Nat.cast_pos.mpr a.pos).ne'
  have hb : ((b.den : ℚ)) ≠ 0 := (Nat.cast_pos.mpr b.pos).ne'
  rw [qadd, Rat.mkRat_eq_div]
  conv_rhs => rw [← Rat.num_div_den a, ← Rat.num_div_den b]
  rw [div_add_div _ _ ha hb]
  push_cast
  ring_nf

lemma qsub_eq_sub (a b : ℚ) : qsub a b = a - b := by
  rw [qsub, qadd_eq_add, sub_eq_add_neg]

lemma qmul_eq_mul (a b : ℚ) : qmul a b = a * b := by
  rw [qmul, Rat.mkRat_eq_div]
  conv_rhs => rw [← Rat.num_div_den a, ← Rat.num_div_den b]
  rw [div_mul_div_comm]
  push_cast
  ring_nf

lemma qinv_eq_inv (b : ℚ) : qinv b = b⁻¹ := by
  rw [qinv]
  rcases lt_trichotomy b.num 0 with hneg | hzero | hpos
  · rw [if_neg (by omega), if_pos hneg, Rat.inv_def', Rat.mkRat_eq_divInt]
    have habs : (b.num.natAbs : ℤ) = -b.num := by omega
    rw [habs]
    exact Rat.neg_divInt_neg _ _
  · rw [if_neg (by omega), if_neg (by omega)]
    have : b = 0 := by
      rw [← Rat.num_div_den b, hzero]
      simp
    rw [this, inv_zero]
  · rw [if_pos hpos, Rat.inv_def', Rat.mkRat_eq_divInt,
      Int.toNat_of_nonneg hpos.le]

lemma qdiv_eq_div (a b : ℚ) : qdiv a b = a / b := by
  rw [qdiv, qmul_eq_mul, qinv_eq_inv, div_eq_mul_inv]

/-! ## Helper lemmas about `analyze` -/

/-- Every member of `successfulResponses` carries a result. -/
lemma mem_successfulResponses_isSome {responses : List ProviderResponse}
    {p : ProviderResponse} (hp : p ∈ successfulResponses responses) :
    p.1.isSome := by
  have := List.mem_filter.mp hp
  exact this.2

/-- When some provider succeeded, the extracted result list is nonempty. -/
lemma successfulResults_ne_nil {responses : List ProviderResponse}
    (hne : successfulResponses responses ≠ []) :
    (successfulResponses responses).filterMap (·.1) ≠ [] := by
  rcases hs : successfulResponses responses with _ | ⟨p, t⟩
  · exact absurd hs hne
  · have hp : p ∈ successfulResponses responses := by
      rw [hs]; exact List.mem_cons_self p t
    have hsome := mem_successfulResponses_isSome hp
    rcases p with ⟨r?, w⟩
    rcases r? with _ | r
    · simp at hsome
    · simp [hs, List.filterMap_cons]

/-- Shape of a successful `analyze` call: whenever at least one provider
succeeded, `analyze` returns `.ok` and the outcome's `providerResults` is
exactly the successful providers' result list. -/
lemma analyze_ok_shape (cfg : ConsensusConfig) (h : Heap)
    (responses : List ProviderResponse)
    (hne : successfulResponses responses ≠ []) :
    ∃ o, analyze cfg h responses = .ok o ∧
      o.providerResults = (successfulResponses responses).filterMap (·.1) := by
  unfold analyze
  rw [if_neg (by simpa [List.isEmpty_iff] using hne)]
  rcases cfg.requireAgreement with _ | ra
  · exact ⟨_, rfl, rfl⟩
  · simp only
    by_cases hra : ra ≠ 0
    · rw [if_pos hra]
      by_cases hag : calculateAgreement
          (applyMethod cfg.method h
            ((successfulResponses responses).filterMap (·.1))
            ((successfulResponses responses).map (·.2))).2
          ((successfulResponses responses).filterMap (·.1)) < ra
      · rw [if_pos hag]
        rcases cfg.conflictResolution with _ | cr
        · exact ⟨_, rfl, rfl⟩
        · exact ⟨_, rfl, rfl⟩
      · rw [if_neg hag]
        exact ⟨_, rfl, rfl⟩
    · rw [if_neg hra]
      exact ⟨_, rfl, rfl⟩

/-- `analyze` fails exactly when no provider succeeded. -/
lemma analyze_error_iff (cfg : ConsensusConfig) (h : Heap)
    (responses : List ProviderResponse) :
    analyze cfg h responses = .error .allProvidersFailed ↔
      successfulResponses responses = [] := by
  constructor
  · intro herr
    by_contra hne
    obtain ⟨o, hok, -⟩ := analyze_ok_shape cfg h responses hne
    rw [hok] at herr
    exact Except.noConfusion herr
  · intro hnil
    unfold analyze
    rw [if_pos (by simp [hnil])]

/-! ## Claim theorems: consensus aggregator -/

/-- C1.  For every consensus call, `analyze` fails with
`AllProvidersFailed` if and only if the number of providers that returned
success is zero; whenever at least one provider succeeds, a merged result
is returned carrying the (nonempty) successful results — never a silently
empty outcome. -/
theorem C1_allProvidersFailed_iff_no_success (cfg : ConsensusConfig)
    (h : Heap) (responses : List ProviderResponse) :
    (analyze cfg h responses = .error .allProvidersFailed ↔
        successfulResponses responses = []) ∧
      (successfulResponses responses ≠ [] →
        ∃ o, analyze cfg h responses = .ok o ∧ o.providerResults ≠ []) := by
  refine ⟨analyze_error_iff cfg h responses, fun hne => ?_⟩
  obtain ⟨o, hok, hpr⟩ := analyze_ok_shape cfg h responses hne
  exact ⟨o, hok, hpr ▸ successfulResults_ne_nil hne⟩

/-- Witness for C1 at a concrete input: one failed and one successful
provider; `analyze` returns a nonempty merged outcome. -/
theorem C1_allProvidersFailed_iff_no_success_witness :
    successfulResponses [((none : Option AnalysisResult), (1 : ℚ)),
        (some default, 1)] ≠ [] ∧
      ∃ o, analyze ⟨.voting, none, none⟩ []
          [((none : Option AnalysisResult), (1 : ℚ)), (some default, 1)] = .ok o ∧
        o.providerResults ≠ [] :=
  ⟨by decide,
    (C1_allProvidersFailed_iff_no_success ⟨.voting, none, none⟩ []
      [(none, 1), (some default, 1)]).2 (by decide)⟩

/-- C7 counterexample.  With one failed and one successful provider the
outcome's result list has a single element — it is not the full
per-provider list (length 2), so the failed provider's failure is not
visible in the outcome. -/
theorem C7_full_provider_list_counterexample :
    ((analyze ⟨.voting, none, none⟩ []
        [((none : Option AnalysisResult), (1 : ℚ)), (some default, 1)]).toOption.map
      (fun o => o.providerResults.length)) = some 1 ∧
      ([((none : Option AnalysisResult), (1 : ℚ)), (some default, 1)]).length = 2 := by
  constructor <;> decide

/-- C7 (amended).  For every consensus call with at least one successful
provider, the outcome carries exactly the successful providers' results,
in provider order; failed providers are omitted from the list, and a
partial failure never surfaces as a thrown error. -/
theorem C7_outcome_carries_successful_results (cfg : ConsensusConfig)
    (h : Heap) (responses : List ProviderResponse)
    (hne : successfulResponses responses ≠ []) :
    ∃ o, analyze cfg h responses = .ok o ∧
      o.providerResults = (successfulResponses responses).filterMap (·.1) :=
  analyze_ok_shape cfg h responses hne

/-- Witness for C7 at a concrete partial failure. -/
theorem C7_outcome_carries_successful_results_witness :
    successfulResponses
        [((none : Option AnalysisResult), (1 : ℚ)), (some (mkResult 0), 1)] ≠ [] ∧
      ∃ o, analyze ⟨.expertSelection, none, none⟩ [mkCell "positive" [] []]
          [((none : Option AnalysisResult), (1 : ℚ)), (some (mkResult 0), 1)] = .ok o ∧
        o.providerResults =
          (successfulResponses
            [((none : Option AnalysisResult), (1 : ℚ)),
             (some (mkResult 0), 1)]).filterMap (·.1) :=
  ⟨by decide,
    C7_outcome_carries_successful_results ⟨.expertSelection, none, none⟩
      [mkCell "positive" [] []] [(none, 1), (some (mkResult 0), 1)] (by decide)⟩

/-- C6 counterexample.  A concrete low-agreement call (two providers with
contradictory sentiments and disjoint themes, `requireAgreement = 0.9`,
`conflictResolution = weighted-merge`): the outcome's metadata object has
exactly the keys `agreementScore` and `lowAgreement` and carries no
`resolutionMethodUsed` field at all. -/
theorem C6_resolutionMethodUsed_counterexample :
    ((analyze ⟨.voting, some (mkRat 9 10), some .weightedMerge⟩
        [mkCell "positive" [] ["a"], mkCell "negative" [] ["b"]]
        [(some (mkResult 0), 1), (some (mkResult 1), 1)]).toOption.map
      (fun o => (alistGet o.consensusMetadata "resolutionMethodUsed",
                 o.consensusMetadata.map (·.1)))) =
      some (none, ["agreementScore", "lowAgreement"]) := by
  decide

/-- C6 (amended).  The outcome exposes no `resolutionMethodUsed` field
(its metadata keys after a low-agreement re-resolution are exactly
`agreementScore` and `lowAgreement`); nevertheless, when
`requireAgreement` is a nonzero bar, the agreement score falls below it
and a `conflictResolution` is configured, the returned merged result is
the one recomputed by the configured conflict-resolution method — not by
the originally configured method. -/
theorem C6_conflict_resolution_governs_merge (method : Method) (ra : ℚ)
    (cr : ConflictMethod) (h : Heap) (responses : List ProviderResponse)
    (hne : successfulResponses responses ≠ []) (hra : ra ≠ 0)
    (hag : calculateAgreement
        (applyMethod method h
          ((successfulResponses responses).filterMap (·.1))
          ((successfulResponses responses).map (·.2))).2
        ((successfulResponses responses).filterMap (·.1)) < ra) :
    ∃ o, analyze ⟨method, some ra, some cr⟩ h responses = .ok o ∧
      alistGet o.consensusMetadata "resolutionMethodUsed" = none ∧
      o.consensusMetadata.map (·.1) = ["agreementScore", "lowAgreement"] ∧
      o.merged = (resolveConflicts
        (applyMethod method h
          ((successfulResponses responses).filterMap (·.1))
          ((successfulResponses responses).map (·.2))).2
        ((successfulResponses responses).filterMap (·.1))
        ((successfulResponses responses).map (·.2)) cr).1 := by
  refine ⟨⟨(resolveConflicts
      (applyMethod method h
        ((successfulResponses responses).filterMap (·.1))
        ((successfulResponses responses).map (·.2))).2
      ((successfulResponses responses).filterMap (·.1))
      ((successfulResponses responses).map (·.2)) cr).1,
    (successfulResponses responses).filterMap (·.1),
    [("agreementScore", MetaVal.num (calculateAgreement
        (applyMethod method h
          ((successfulResponses responses).filterMap (·.1))
          ((successfulResponses responses).map (·.2))).2
        ((successfulResponses responses).filterMap (·.1)))),
     ("lowAgreement", MetaVal.bool true)],
    (resolveConflicts
      (applyMethod method h
        ((successfulResponses responses).filterMap (·.1))
        ((successfulResponses responses).map (·.2))).2
      ((successfulResponses responses).filterMap (·.1))
      ((successfulResponses responses).map (·.2)) cr).2⟩, ?_, rfl, rfl, rfl⟩
  unfold analyze
  rw [if_neg (by simpa [List.isEmpty_iff] using hne)]
  simp only
  rw [if_pos hra, if_pos hag]

/-- Witness for C6 on the concrete low-agreement scenario of the spec's
agreement-trigger property. -/
theorem C6_conflict_resolution_governs_merge_witness :
    successfulResponses [(some (mkResult 0), (1 : ℚ)), (some (mkResult 1), 1)] ≠ [] ∧
      mkRat 9 10 ≠ 0 ∧
      ∃ o, analyze ⟨.voting, some (mkRat 9 10), some .weightedMerge⟩
          [mkCell "positive" [] ["a"], mkCell "negative" [] ["b"]]
          [(some (mkResult 0), 1), (some (mkResult 1), 1)] = .ok o ∧
        alistGet o.consensusMetadata "resolutionMethodUsed" = none ∧
        o.consensusMetadata.map (·.1) = ["agreementScore", "lowAgreement"] ∧
        o.merged = (resolveConflicts
          (applyMethod .voting [mkCell "positive" [] ["a"], mkCell "negative" [] ["b"]]
            ((successfulResponses [(some (mkResult 0), (1 : ℚ)), (some (mkResult 1), 1)]).filterMap (·.1))
            ((successfulResponses [(some (mkResult 0), (1 : ℚ)), (some (mkResult 1), 1)]).map (·.2))).2
          ((successfulResponses [(some (mkResult 0), (1 : ℚ)), (some (mkResult 1), 1)]).filterMap (·.1))
          ((successfulResponses [(some (mkResult 0), (1 : ℚ)), (some (mkResult 1), 1)]).map (·.2))
          .weightedMerge).1 :=
  ⟨by decide, by decide,
    C6_conflict_resolution_governs_merge .voting (mkRat 9 10) .weightedMerge
      [mkCell "positive" [] ["a"], mkCell "negative" [] ["b"]]
      [(some (mkResult 0), 1), (some (mkResult 1), 1)]
      (by decide) (by decide) (by decide)⟩

/-! ## Vote-map lemmas

The voting code accumulates `Map`s of counts in insertion order; these
lemmas characterize lookups in such maps by plain list counts. -/

lemma bumpN_get_self (m : List (String × Nat)) (k : String) :
    alistGet (bumpN m k) k = some ((alistGet m k).getD 0 + 1) := by
  induction m with
  | nil => simp [bumpN, alistGet]
  | cons p rest ih =>
    obtain ⟨k', v⟩ := p
    by_cases hk : k' = k
    · subst hk
      simp [bumpN, alistGet]
    · simpa [bumpN, hk, alistGet] using ih

lemma bumpN_get_ne (m : List (String × Nat)) {k k' : String} (hk : k' ≠ k) :
    alistGet (bumpN m k) k' = alistGet m k' := by
  induction m with
  | nil => simp [bumpN, alistGet, Ne.symm hk]
  | cons p rest ih =>
    obtain ⟨k0, v⟩ := p
    by_cases h0 : k0 = k
    · subst h0
      simp [bumpN, alistGet, Ne.symm hk]
    · by_cases h1 : k0 = k'
      · subst h1
        simp [bumpN, h0, alistGet]
      · simpa [bumpN, h0, alistGet, h1] using ih

lemma foldl_bumpN_getD (pts : List String) (k : String) :
    ∀ m, (alistGet (pts.foldl (fun m p => bumpN m p) m) k).getD 0 =
      (alistGet m k).getD 0 + pts.count k := by
  induction pts with
  | nil => simp
  | cons p t ih =>
    intro m
    rw [List.foldl_cons, ih, List.count_cons]
    by_cases hp : p = k
    · subst hp
      rw [bumpN_get_self]
      simp [Option.getD_some]
      omega
    · rw [bumpN_get_ne _ (Ne.symm hp)]
      simp [hp]

lemma foldl_bumpN_isSome (pts : List String) (k : String) :
    ∀ m, (alistGet (pts.foldl (fun m p => bumpN m p) m) k).isSome =
      ((alistGet m k).isSome || decide (k ∈ pts)) := by
  induction pts with
  | nil => simp
  | cons p t ih =>
    intro m
    rw [List.foldl_cons, ih]
    by_cases hp : p = k
    · subst hp
      simp [bumpN_get_self]
    · rw [bumpN_get_ne _ (Ne.symm hp)]
      simp [(Ne.symm hp : k ≠ p)]

lemma votesOf_getD (pts : List String) (k : String) :
    (alistGet (votesOf pts) k).getD 0 = pts.count k := by
  have h0 := foldl_bumpN_getD pts k []
  rw [show alistGet ([] : List (String × Nat)) k = none from rfl] at h0
  simpa [votesOf] using h0

lemma votesOf_isSome (pts : List String) (k : String) :
    (alistGet (votesOf pts) k).isSome = decide (k ∈ pts) := by
  have h0 := foldl_bumpN_isSome pts k []
  rw [show alistGet ([] : List (String × Nat)) k = none from rfl] at h0
  simpa [votesOf] using h0

lemma votesOf_get (pts : List String) (k : String) :
    alistGet (votesOf pts) k =
      if k ∈ pts then some (pts.count k) else none := by
  have hD := votesOf_getD pts k
  have hS := votesOf_isSome pts k
  rcases hval : alistGet (votesOf pts) k with _ | v
  · rw [hval] at hS
    simp only [Option.isSome_none, Bool.false_eq, decide_eq_false_iff_not] at hS
    rw [if_neg hS]
  · rw [hval] at hD hS
    simp only [Option.isSome_some, Bool.true_eq, decide_eq_true_eq] at hS
    simp only [Option.getD_some] at hD
    rw [if_pos hS, hD]

lemma bumpN_keys (m : List (String × Nat)) (k : String) :
    (bumpN m k).map (·.1) =
      if k ∈ m.map (·.1) then m.map (·.1) else m.map (·.1) ++ [k] := by
  induction m with
  | nil => simp [bumpN]
  | cons p rest ih =>
    obtain ⟨k0, v⟩ := p
    by_cases h0 : k0 = k
    · subst h0
      simp [bumpN]
    · simp only [bumpN, h0, if_false, List.map_cons, List.mem_cons, ih]
      by_cases hmem : k ∈ rest.map (·.1)
      · simp [hmem, Ne.symm h0]
      · simp [hmem, Ne.symm h0]

lemma foldl_bumpN_keys_nodup (pts : List String) :
    ∀ m : List (String × Nat), (m.map (·.1)).Nodup →
      ((pts.foldl (fun m p => bumpN m p) m).map (·.1)).Nodup := by
  induction pts with
  | nil => exact fun m hm => hm
  | cons p t ih =>
    intro m hm
    rw [List.foldl_cons]
    refine ih _ ?_
    rw [bumpN_keys]
    by_cases hmem : p ∈ m.map (·.1)
    · rwa [if_pos hmem]
    · rw [if_neg hmem, List.nodup_append]
      refine ⟨hm, List.nodup_singleton _, ?_⟩
      intro a ha hb
      simp only [List.mem_singleton] at hb
      subst hb
      exact hmem ha

lemma votesOf_keys_nodup (pts : List String) :
    ((votesOf pts).map (·.1)).Nodup :=
  foldl_bumpN_keys_nodup pts [] (by simp)

lemma alistGet_eq_some_of_mem {β : Type} {m : List (String × β)}
    {k : String} {v : β} (hnd : (m.map (·.1)).Nodup) (hmem : (k, v) ∈ m) :
    alistGet m k = some v := by
  induction m with
  | nil => simp at hmem
  | cons p rest ih =>
    obtain ⟨k0, v0⟩ := p
    rcases List.mem_cons.mp hmem with heq | htail
    · injection heq with h1 h2
      subst h1; subst h2
      simp [alistGet]
    · have hk0 : k0 ≠ k := by
        rintro rfl
        have : k0 ∈ rest.map (·.1) := List.mem_map.mpr ⟨(k0, v), htail, rfl⟩
        simp only [List.map_cons, List.nodup_cons] at hnd
        exact hnd.1 this
      have := ih (by simpa using hnd.of_cons) htail
      simpa [alistGet, hk0] using this

lemma mem_of_alistGet {β : Type} {m : List (String × β)} {k : String}
    {v : β} (h : alistGet m k = some v) : (k, v) ∈ m := by
  induction m with
  | nil => simp [alistGet] at h
  | cons p rest ih =>
    obtain ⟨k0, v0⟩ := p
    by_cases hk : k0 = k
    · subst hk
      have hhead : alistGet ((k0, v0) :: rest) k0 = some v0 := by
        simp [alistGet]
      rw [hhead] at h
      injection h with h
      subst h
      exact List.mem_cons_self _ _
    · have htail : alistGet ((k0, v0) :: rest) k = alistGet rest k := by
        simp [alistGet, List.find?_cons, hk]
      rw [htail] at h
      exact List.mem_cons_of_mem _ (ih h)

/-- Membership in the filtered entries of a vote map, in terms of raw
occurrence counts. -/
lemma mem_filtered_votes (pts : List String) (pred : Nat → Bool) (p : String) :
    (p ∈ ((votesOf pts).filter (fun e => pred e.2)).map (·.1)) ↔
      (p ∈ pts ∧ pred (pts.count p)) := by
  constructor
  · rintro hmem
    obtain ⟨⟨p', v⟩, hf, rfl⟩ := List.mem_map.mp hmem
    obtain ⟨hin, hpred⟩ := List.mem_filter.mp hf
    have hget := alistGet_eq_some_of_mem (votesOf_keys_nodup pts) hin
    rw [votesOf_get] at hget
    by_cases hm : p' ∈ pts
    · rw [if_pos hm] at hget
      injection hget with hget
      subst hget
      exact ⟨hm, by simpa using hpred⟩
    · rw [if_neg hm] at hget
      exact absurd hget (by simp)
  · rintro ⟨hin, hpred⟩
    have hget : alistGet (votesOf pts) p = some (pts.count p) := by
      rw [votesOf_get, if_pos hin]
    refine List.mem_map.mpr ⟨(p, pts.count p), ?_, rfl⟩
    exact List.mem_filter.mpr ⟨mem_of_alistGet hget, by simpa using hpred⟩

/-- The vote accumulators of the source are the vote map of the
concatenation of the per-provider lists. -/
lemma foldl_votes_flat (g : AiCell → List String) (h : Heap) :
    ∀ (results : List AnalysisResult) (m : List (String × Nat)),
      results.foldl (fun m r =>
        match aiOf h r with
        | some c => (g c).foldl (fun m p => bumpN m p) m
        | none => m) m =
      (results.flatMap (fun r => ((aiOf h r).map g).getD [])).foldl
        (fun m p => bumpN m p) m := by
  intro results
  induction results with
  | nil => intro m; rfl
  | cons r t ih =>
    intro m
    rw [List.foldl_cons, List.flatMap_cons, List.foldl_append, ih]
    rcases har : aiOf h r with _ | c <;> simp [har]

lemma keyPointVotes_eq (h : Heap) (results : List AnalysisResult) :
    keyPointVotes h results = votesOf (results.flatMap (kpList h)) := by
  rw [keyPointVotes, votesOf]
  exact foldl_votes_flat (·.keyPoints) h results []

lemma themeVotes_eq (h : Heap) (results : List AnalysisResult) :
    themeVotes h results = votesOf (results.flatMap (thList h)) := by
  rw [themeVotes, votesOf]
  exact foldl_votes_flat (·.themes) h results []

/-- Overwriting a valid heap cell makes the new cell readable at the same
reference. -/
lemma heapGet_heapSet_self {h : Heap} {ref : Nat} {cell : AiCell}
    {c' : AiCell} (hc : heapGet h ref = some cell) :
    heapGet (heapSet h ref c') ref = some c' := by
  unfold heapGet heapSet
  unfold heapGet at hc
  rw [List.get?_eq_getElem?] at hc ⊢
  rw [List.getElem?_set_self', hc]
  rfl

/-- Membership in the majority-filtered vote entries of a flat item list
is exactly the source's `votes >= results.length / 2` test on the raw
occurrence count. -/
lemma voting_filter_mem (N : Nat) (hN : N ≠ 0) (pts : List String) (p : String) :
    (p ∈ ((votesOf pts).filter
        (fun e => decide (qdiv (N : ℚ) 2 ≤ (e.2 : ℚ)))).map (·.1)) ↔
      ((N : ℚ) / 2 ≤ (pts.count p : ℚ)) := by
  rw [mem_filtered_votes pts (fun v => decide (qdiv (N : ℚ) 2 ≤ (v : ℚ))) p]
  constructor
  · rintro ⟨-, hpred⟩
    rw [qdiv_eq_div] at hpred
    exact of_decide_eq_true hpred
  · intro hle
    have hpos : 0 < pts.count p := by
      rcases Nat.eq_zero_or_pos (pts.count p) with h0 | h0
      · exfalso
        rw [h0] at hle
        have hN' : (0 : ℚ) < (N : ℚ) / 2 := by
          have : (0 : ℚ) < (N : ℚ) := by
            exact_mod_cast Nat.pos_of_ne_zero hN
          linarith
        simp only [Nat.cast_zero] at hle
        linarith
      · exact h0
    exact ⟨List.count_pos_iff.mp hpos, by rw [qdiv_eq_div]; exact decide_eq_true hle⟩

/-- C5 (amended).  Under Voting with `N = results.length ≥ 1` providers
whose first result carries an `aiAnalysis` object, a key point or theme
appears in the merged output iff its total occurrence count across the
provider outputs (a provider listing an item twice contributes two) meets
the source's threshold `N / 2` — not iff it appears in `⌈N/2⌉` distinct
providers. -/
theorem C5_voting_majority_by_occurrences (h : Heap)
    (results : List AnalysisResult) (ref : Nat) (cell : AiCell) (p : String)
    (hne : results ≠ [])
    (href : (results.headD default).aiAnalysis = some ref)
    (hcell : heapGet h ref = some cell) :
    (p ∈ outKeyPoints (votingConsensus h results) ↔
      ((results.length : ℚ) / 2 ≤ (kpOccurrences h results p : ℚ))) ∧
    (p ∈ outThemes (votingConsensus h results) ↔
      ((results.length : ℚ) / 2 ≤ (thOccurrences h results p : ℚ))) := by
  have hN : results.length ≠ 0 := fun h0 => hne (List.length_eq_zero.mp h0)
  have hvc : votingConsensus h results =
      (results.headD default,
        heapSet h ref
          { cell with
            sentiment := orNeutral
              ((sortDescN (sentimentVotes h results)).head?.map (·.1)),
            keyPoints := ((keyPointVotes h results).filter
              (fun e => decide (qdiv (results.length : ℚ) 2 ≤ (e.2 : ℚ)))).map (·.1),
            themes := ((themeVotes h results).filter
              (fun e => decide (qdiv (results.length : ℚ) 2 ≤ (e.2 : ℚ)))).map (·.1) }) := by
    simp only [votingConsensus, href, hcell]
  constructor
  · rw [outKeyPoints, hvc]
    simp only [aiOf, href, Option.some_bind,
      heapGet_heapSet_self hcell, Option.map_some', Option.getD_some]
    rw [keyPointVotes_eq]
    exact voting_filter_mem results.length hN (results.flatMap (kpList h)) p
  · rw [outThemes, hvc]
    simp only [aiOf, href, Option.some_bind,
      heapGet_heapSet_self hcell, Option.map_some', Option.getD_some]
    rw [themeVotes_eq]
    exact voting_filter_mem results.length hN (results.flatMap (thList h)) p

/-- Witness for C5 at a concrete input: two providers both listing key
point `"x"`; the iff from the theorem holds. -/
theorem C5_voting_majority_by_occurrences_witness :
    ([mkResult 0, mkResult 1] : List AnalysisResult) ≠ [] ∧
      (([mkResult 0, mkResult 1] : List AnalysisResult).headD default).aiAnalysis = some 0 ∧
      heapGet [mkCell "positive" ["x"] [], mkCell "positive" ["x"] []] 0 =
        some (mkCell "positive" ["x"] []) ∧
      (("x" ∈ outKeyPoints (votingConsensus
          [mkCell "positive" ["x"] [], mkCell "positive" ["x"] []]
          [mkResult 0, mkResult 1]) ↔
        ((([mkResult 0, mkResult 1] : List AnalysisResult).length : ℚ) / 2 ≤
          ((kpOccurrences [mkCell "positive" ["x"] [], mkCell "positive" ["x"] []]
            [mkResult 0, mkResult 1] "x" : Nat) : ℚ))) ∧
      ("x" ∈ outThemes (votingConsensus
          [mkCell "positive" ["x"] [], mkCell "positive" ["x"] []]
          [mkResult 0, mkResult 1]) ↔
        ((([mkResult 0, mkResult 1] : List AnalysisResult).length : ℚ) / 2 ≤
          ((thOccurrences [mkCell "positive" ["x"] [], mkCell "positive" ["x"] []]
            [mkResult 0, mkResult 1] "x" : Nat) : ℚ)))) :=
  ⟨by decide, by decide, by decide,
    C5_voting_majority_by_occurrences
      [mkCell "positive" ["x"] [], mkCell "positive" ["x"] []]
      [mkResult 0, mkResult 1] 0 (mkCell "positive" ["x"] []) "x"
      (by decide) (by decide) (by decide)⟩

/-- C5 counterexample.  Three providers, the first listing `"p"` twice and
the others not at all: `"p"` appears verbatim in only 1 provider, below
`⌈3/2⌉ = 2`, yet its two occurrences meet the threshold `3 / 2` and the
point appears in the merged voting output — the claim's
provider-counting iff is false. -/
theorem C5_voting_majority_counterexample :
    ("p" ∈ outKeyPoints (votingConsensus
        [mkCell "neutral" ["p", "p"] [], mkCell "neutral" [] []]
        [mkResult 0, mkResult 1, mkResult 1])) ∧
      kpProviders [mkCell "neutral" ["p", "p"] [], mkCell "neutral" [] []]
        [mkResult 0, mkResult 1, mkResult 1] "p" = 1 ∧
      ¬((([mkResult 0, mkResult 1, mkResult 1] : List AnalysisResult).length + 1) / 2 ≤
        kpProviders [mkCell "neutral" ["p", "p"] [], mkCell "neutral" [] []]
          [mkResult 0, mkResult 1, mkResult 1] "p") := by
  refine ⟨?_, ?_, ?_⟩ <;> decide

/-! ## Sharing of the base provider's `aiAnalysis` reference (C10) -/

/-- The recommendation merge only rewrites the copy's `recommendations`
field; the `aiAnalysis` reference is untouched. -/
lemma recMerge_aiAnalysis (base : AnalysisResult)
    (results : List AnalysisResult) (rz : List (AnalysisResult × ℚ)) :
    (recMerge base results rz).aiAnalysis = base.aiAnalysis := by
  unfold recMerge
  split <;> rfl

/-- `weightedAverageConsensus` returns a shallow copy of the max-weight
provider's result: the merged result's `aiAnalysis` is the base
provider's reference. -/
lemma weightedAverageConsensus_fst_aiAnalysis (h : Heap)
    (results : List AnalysisResult) (weights : List ℚ) :
    (weightedAverageConsensus h results weights).1.aiAnalysis =
      (results.getD (idxOfMax weights) default).aiAnalysis := by
  unfold weightedAverageConsensus
  rcases hai : (results.getD (idxOfMax weights) default).aiAnalysis with _ | ref
  · simp only [hai, recMerge_aiAnalysis]
  · rcases hg : heapGet h ref with _ | cell
    · simp only [hai, hg, recMerge_aiAnalysis]
    · simp only [hai, hg, recMerge_aiAnalysis]

/-- `votingConsensus` returns `results[0]` itself as the merged record
(all merged values flow through the shared heap cell). -/
lemma votingConsensus_fst (h : Heap) (results : List AnalysisResult) :
    (votingConsensus h results).1 = results.headD default := by
  unfold votingConsensus
  rcases hai : (results.headD default).aiAnalysis with _ | ref
  · simp only [hai]
  · rcases hg : heapGet h ref with _ | cell
    · simp only [hai, hg]
    · simp only [hai, hg]

/-- With no `requireAgreement` bar, `analyze` returns the merge result and
the successful results directly. -/
lemma analyze_no_agreement (m : Method) (h : Heap)
    (responses : List ProviderResponse)
    (hne : successfulResponses responses ≠ []) :
    analyze ⟨m, none, none⟩ h responses =
      .ok ⟨(applyMethod m h ((successfulResponses responses).filterMap (·.1))
              ((successfulResponses responses).map (·.2))).1,
           (successfulResponses responses).filterMap (·.1), [],
           (applyMethod m h ((successfulResponses responses).filterMap (·.1))
              ((successfulResponses responses).map (·.2))).2⟩ := by
  unfold analyze
  rw [if_neg (by simpa [List.isEmpty_iff] using hne)]

/-- C10.  The weighted-average and voting merges copy the base provider's
result with a shallow spread and write the merged fields into the shared
`aiAnalysis` heap cell; consequently the base provider's entry in the
outcome's per-provider list reads exactly the merged `aiAnalysis` values
from the final heap. -/
theorem C10_base_provider_entry_shares_merged_cell (h : Heap)
    (responses : List ProviderResponse)
    (hne : successfulResponses responses ≠ []) :
    (∃ o, analyze ⟨.weightedAverage, none, none⟩ h responses = .ok o ∧
      o.heap = (weightedAverageConsensus h
        ((successfulResponses responses).filterMap (·.1))
        ((successfulResponses responses).map (·.2))).2 ∧
      o.merged.aiAnalysis =
        ((((successfulResponses responses).filterMap (·.1) :
            List AnalysisResult)).getD
          (idxOfMax ((successfulResponses responses).map (·.2))) default).aiAnalysis ∧
      aiOf o.heap (o.providerResults.getD
          (idxOfMax ((successfulResponses responses).map (·.2))) default) =
        aiOf o.heap o.merged) ∧
    (∃ o, analyze ⟨.voting, none, none⟩ h responses = .ok o ∧
      o.heap = (votingConsensus h
        ((successfulResponses responses).filterMap (·.1))).2 ∧
      o.merged = ((successfulResponses responses).filterMap (·.1)).headD default ∧
      aiOf o.heap (o.providerResults.headD default) = aiOf o.heap o.merged) := by
  constructor
  · refine ⟨_, analyze_no_agreement .weightedAverage h responses hne, ?_, ?_, ?_⟩
    · simp only [applyMethod]
    · simp only [applyMethod, weightedAverageConsensus_fst_aiAnalysis]
    · simp only [applyMethod, aiOf, weightedAverageConsensus_fst_aiAnalysis]
  · refine ⟨_, analyze_no_agreement .voting h responses hne, ?_, ?_, ?_⟩
    · simp only [applyMethod]
    · simp only [applyMethod, votingConsensus_fst]
    · simp only [applyMethod, aiOf, votingConsensus_fst]

/-- Witness for C10 at a concrete input, together with the concrete
observation that the base provider's entry now reads merged values that
differ from its original output. -/
theorem C10_base_provider_entry_shares_merged_cell_witness :
    successfulResponses [(some (mkResult 0), (1 : ℚ)), (some (mkResult 1), 2)] ≠ [] ∧
      ((∃ o, analyze ⟨.weightedAverage, none, none⟩
          [mkCell "positive" ["a"] [], mkCell "negative" ["b"] []]
          [(some (mkResult 0), 1), (some (mkResult 1), 2)] = .ok o ∧
        o.heap = (weightedAverageConsensus
          [mkCell "positive" ["a"] [], mkCell "negative" ["b"] []]
          ((successfulResponses [(some (mkResult 0), (1 : ℚ)), (some (mkResult 1), 2)]).filterMap (·.1))
          ((successfulResponses [(some (mkResult 0), (1 : ℚ)), (some (mkResult 1), 2)]).map (·.2))).2 ∧
        o.merged.aiAnalysis =
          ((((successfulResponses [(some (mkResult 0), (1 : ℚ)), (some (mkResult 1), 2)]).filterMap (·.1) :
              List AnalysisResult)).getD
            (idxOfMax ((successfulResponses [(some (mkResult 0), (1 : ℚ)), (some (mkResult 1), 2)]).map (·.2))) default).aiAnalysis ∧
        aiOf o.heap (o.providerResults.getD
            (idxOfMax ((successfulResponses [(some (mkResult 0), (1 : ℚ)), (some (mkResult 1), 2)]).map (·.2))) default) =
          aiOf o.heap o.merged) ∧
      (∃ o, analyze ⟨.voting, none, none⟩
          [mkCell "positive" ["a"] [], mkCell "negative" ["b"] []]
          [(some (mkResult 0), 1), (some (mkResult 1), 2)] = .ok o ∧
        o.heap = (votingConsensus
          [mkCell "positive" ["a"] [], mkCell "negative" ["b"] []]
          ((successfulResponses [(some (mkResult 0), (1 : ℚ)), (some (mkResult 1), 2)]).filterMap (·.1))).2 ∧
        o.merged = ((successfulResponses [(some (mkResult 0), (1 : ℚ)), (some (mkResult 1), 2)]).filterMap (·.1)).headD default ∧
        aiOf o.heap (o.providerResults.headD default) = aiOf o.heap o.merged)) ∧
      aiOf (weightedAverageConsensus
          [mkCell "positive" ["a"] [], mkCell "negative" ["b"] []]
          [mkResult 0, mkResult 1] [1, 2]).2 (mkResult 1) ≠
        aiOf [mkCell "positive" ["a"] [], mkCell "negative" ["b"] []] (mkResult 1) :=
  ⟨by decide,
    C10_base_provider_entry_shares_merged_cell
      [mkCell "positive" ["a"] [], mkCell "negative" ["b"] []]
      [(some (mkResult 0), 1), (some (mkResult 1), 2)] (by decide),
    by decide⟩

/-! ## Cache bounding lemmas (C2) -/

lemma lruTotalSize_nil {V : Type} : lruTotalSize ([] : Lru V) = 0 := rfl

lemma lruTotalSize_append {V : Type} (a b : Lru V) :
    lruTotalSize (a ++ b) = lruTotalSize a + lruTotalSize b := by
  simp [lruTotalSize]

lemma lruTotalSize_filter_le {V : Type} (p : LruItem V → Bool) (l : Lru V) :
    lruTotalSize (l.filter p) ≤ lruTotalSize l := by
  refine List.Sublist.sum_le_sum ?_ (fun a _ => Nat.zero_le a)
  exact (List.filter_sublist l).map _

lemma lruTotalSize_filter_add_le {V : Type} {p : LruItem V → Bool}
    {l : Lru V} {x : LruItem V} (hx : x ∈ l) (hpx : p x = false) :
    lruTotalSize (l.filter p) + x.size ≤ lruTotalSize l := by
  induction l with
  | nil => simp at hx
  | cons y rest ih =>
    rcases List.mem_cons.mp hx with rfl | hmem
    · rw [List.filter_cons, hpx]
      simp only [Bool.false_eq_true, if_false]
      have := lruTotalSize_filter_le p rest
      simp only [lruTotalSize, List.map_cons, List.sum_cons] at this ⊢
      omega
    · rw [List.filter_cons]
      by_cases hy : p y = true
      · rw [hy]
        simp only [if_true]
        have := ih hmem
        simp only [lruTotalSize, List.map_cons, List.sum_cons] at this ⊢
        omega
      · rw [Bool.eq_false_iff.mpr hy]
        simp only [Bool.false_eq_true, if_false]
        have := ih hmem
        simp only [lruTotalSize, List.map_cons, List.sum_cons] at this ⊢
        omega

lemma length_filter_add_le {V : Type} {p : LruItem V → Bool}
    {l : Lru V} {x : LruItem V} (hx : x ∈ l) (hpx : p x = false) :
    (l.filter p).length + 1 ≤ l.length := by
  induction l with
  | nil => simp at hx
  | cons y rest ih =>
    rcases List.mem_cons.mp hx with rfl | hmem
    · rw [List.filter_cons, hpx]
      simp only [Bool.false_eq_true, if_false, List.length_cons]
      simpa using List.length_filter_le p rest
    · rw [List.filter_cons]
      by_cases hy : p y = true
      · rw [hy]
        simp only [if_true, List.length_cons]
        simpa using ih hmem
      · rw [Bool.eq_false_iff.mpr hy]
        simp only [Bool.false_eq_true, if_false, List.length_cons]
        exact le_trans (ih hmem) (Nat.le_succ _)

lemma evictLoop_caps {V : Type} (P : CacheParams V) (l : Lru V) :
    capsLru P (evictLoop P l) := by
  induction l with
  | nil => exact ⟨Nat.zero_le _, Nat.zero_le _⟩
  | cons x rest ih =>
    rw [evictLoop]
    by_cases hfit : lruFits P (x :: rest) = true
    · rw [if_pos hfit]
      simpa [lruFits, capsLru] using hfit
    · rw [if_neg hfit]
      exact ih

lemma capsLru_filter {V : Type} {P : CacheParams V} {l : Lru V}
    (h : capsLru P l) (p : LruItem V → Bool) : capsLru P (l.filter p) :=
  ⟨le_trans (List.length_filter_le p l) h.1,
   le_trans (lruTotalSize_filter_le p l) h.2⟩

lemma capsLru_lruSet {V : Type} (P : CacheParams V) (now : Nat)
    (k : String) (e : CacheEntry V) (size : Nat) {l : Lru V}
    (h : capsLru P l) : capsLru P (lruSet P now k e size l) := by
  rw [lruSet]
  by_cases hsz : P.maxBytes < size
  · rw [if_pos hsz]
    exact capsLru_filter h _
  · rw [if_neg hsz]
    exact evictLoop_caps P _

lemma lruFind_mem {V : Type} {k : String} {l : Lru V} {x : LruItem V}
    (h : lruFind k l = some x) : x ∈ l ∧ x.key = k := by
  have hmem := List.mem_of_find?_eq_some h
  have hkey := List.find?_some h
  exact ⟨hmem, by simpa using hkey⟩

lemma capsLru_lruGet {V : Type} {P : CacheParams V} (now : Nat)
    (k : String) {l : Lru V} (h : capsLru P l) :
    capsLru P (lruGet P now k l).2 := by
  rcases hf : lruFind k l with _ | x
  · simp only [lruGet, hf]
    exact h
  · obtain ⟨hmem, hkey⟩ := lruFind_mem hf
    by_cases hstale : x.start + P.ttl < now
    · simp only [lruGet, hf, if_pos hstale]
      exact capsLru_filter h _
    · simp only [lruGet, hf, if_neg hstale]
      refine ⟨?_, ?_⟩
      · have := length_filter_add_le (p := fun y => !(y.key == k)) hmem
          (by simp [hkey])
        simpa [lruDelete] using le_trans this h.1
      · have := lruTotalSize_filter_add_le (p := fun y => !(y.key == k)) hmem
          (by simp [hkey])
        rw [lruTotalSize_append]
        simp only [lruDelete]
        calc lruTotalSize (l.filter fun y => !(y.key == k)) +
              lruTotalSize [{ x with start := now }]
            = lruTotalSize (l.filter fun y => !(y.key == k)) + x.size := by
              simp [lruTotalSize]
          _ ≤ lruTotalSize l := this
          _ ≤ P.maxBytes := h.2

lemma lruTotalSize_bumpHits {V : Type} (k : String) (l : Lru V) :
    lruTotalSize (lruBumpHits k l) = lruTotalSize l := by
  induction l with
  | nil => rfl
  | cons x rest ih =>
    have hsize :
        (if (x.key == k) = true then
          { x with entry := { x.entry with hits := x.entry.hits + 1 } }
        else x).size = x.size := by
      by_cases hx : (x.key == k) = true
      · rw [if_pos hx]
      · rw [if_neg hx]
    simp only [lruBumpHits, List.map_cons, List.sum_cons, lruTotalSize]
      at ih ⊢
    rw [hsize, ih]

lemma capsLru_bumpHits {V : Type} {P : CacheParams V} (k : String)
    {l : Lru V} (h : capsLru P l) : capsLru P (lruBumpHits k l) :=
  ⟨by simpa [lruBumpHits] using h.1,
   by rw [lruTotalSize_bumpHits]; exact h.2⟩

lemma capsLru_getExact {V : Type} {P : CacheParams V} (now : Nat)
    (k : String) {st : CMState V} (h : capsLru P st.lru) :
    capsLru P ((getExact P now k st).2).lru := by
  rcases hr : (lruGet P now k st.lru).1 with _ | e
  · simp only [getExact, hr]
    have h2 := capsLru_lruGet (P := P) now k h
    exact h2
  · simp only [getExact, hr]
    exact capsLru_bumpHits k (capsLru_lruGet (P := P) now k h)

lemma capsLru_semanticScan {V : Type} {P : CacheParams V} (now : Nat)
    (k : String) {st : CMState V} (h : capsLru P st.lru) :
    capsLru P ((semanticScan P now k st).2).lru := by
  rcases hb : scanBest P.threshold (P.embed k) st.embeddings with _ | bk
  · simp only [semanticScan, hb]
    exact h
  · rcases hg : (lruGet P now bk st.lru).1 with _ | e
    · simp only [semanticScan, hb, hg]
      exact capsLru_lruGet (P := P) now bk h
    · simp only [semanticScan, hb, hg]
      exact capsLru_bumpHits bk (capsLru_lruGet (P := P) now bk h)

lemma capsLru_getSemantic {V : Type} {P : CacheParams V} (now : Nat)
    (k : String) {st : CMState V} (h : capsLru P st.lru) :
    capsLru P ((getSemantic P now k st).2).lru := by
  rcases hr : (getExact P now k st).1 with _ | v
  · simp only [getSemantic, hr]
    exact capsLru_semanticScan now k (capsLru_getExact now k h)
  · simp only [getSemantic, hr]
    by_cases ht : P.truthy v = true
    · rw [if_pos ht]
      exact capsLru_getExact now k h
    · rw [if_neg ht]
      exact capsLru_semanticScan now k (capsLru_getExact now k h)

lemma capsLru_fuzzyLoop {V : Type} {P : CacheParams V} (now : Nat)
    (qp : List String) (ks : List String) :
    ∀ {st : CMState V}, capsLru P st.lru →
      capsLru P (fuzzyOutState (fuzzyLoop P now qp ks st)).lru := by
  induction ks with
  | nil => intro st h; exact h
  | cons ck rest ih =>
    intro st h
    simp only [fuzzyLoop]
    by_cases hseg : qp.get? 1 = (splitColon ck).get? 1
    · rw [if_pos hseg]
      rcases qp.get? 2 with _ | h1 <;> rcases (splitColon ck).get? 2 with _ | h2
      · exact h
      · exact h
      · exact h
      · simp only
        rcases hashSimilarity h1 h2 with _ | sim
        · exact ih h
        · simp only
          by_cases hth : P.threshold ≤ sim
          · rw [if_pos hth]
            rcases hg : (lruGet P now ck st.lru).1 with _ | e
            · simp only [hg]
              exact ih (capsLru_lruGet (P := P) now ck h)
            · simp only [hg]
              exact capsLru_bumpHits ck (capsLru_lruGet (P := P) now ck h)
          · rw [if_neg hth]
            exact ih h
    · rw [if_neg hseg]
      exact ih h

lemma capsLru_getFuzzy {V : Type} {P : CacheParams V} (now : Nat)
    (k : String) {st : CMState V} (h : capsLru P st.lru) :
    capsLru P (fuzzyOutState (getFuzzy P now k st)).lru := by
  rcases hr : (getExact P now k st).1 with _ | v
  · simp only [getFuzzy, hr]
    exact capsLru_fuzzyLoop now _ _ (capsLru_getExact now k h)
  · simp only [getFuzzy, hr]
    by_cases ht : P.truthy v = true
    · rw [if_pos ht]
      exact capsLru_getExact now k h
    · rw [if_neg ht]
      exact capsLru_fuzzyLoop now _ _ (capsLru_getExact now k h)

lemma capsLru_cmGet {V : Type} {P : CacheParams V} (now : Nat)
    (k : String) {st : CMState V} (h : capsLru P st.lru) :
    capsLru P ((cmGet P now k st).2).lru := by
  have h0 : capsLru P ({ st with total := st.total + 1 } : CMState V).lru := h
  rcases hstrat : P.strategy with _ | _ | _
  · simp only [cmGet, hstrat]
    exact capsLru_getExact now k h0
  · simp only [cmGet, hstrat]
    exact capsLru_getSemantic now k h0
  · simp only [cmGet, hstrat]
    have hcaps := capsLru_getFuzzy (P := P) now k h0
    revert hcaps
    rcases getFuzzy P now k { st with total := st.total + 1 } with ⟨vv, st'⟩ | st' <;>
      exact fun hcaps => hcaps

lemma capsLru_cmStep {V : Type} {P : CacheParams V} {st : CMState V}
    (h : capsLru P st.lru) (op : CacheOp V) :
    capsLru P ((cmStep P st op).lru) := by
  rcases op with ⟨now, k, v⟩ | ⟨now, k⟩ | pat | _
  · exact capsLru_lruSet P now k _ _ h
  · exact capsLru_cmGet now k h
  · rcases pat with _ | p
    · exact ⟨Nat.zero_le _, Nat.zero_le _⟩
    · exact capsLru_filter h _
  · exact ⟨Nat.zero_le _, Nat.zero_le _⟩

/-- C2.  After every sequence of cache calls — in particular after every
sequence of `set`s — the store holds at most `maxEntryCount` entries and
at most `maxSizeBytes` of stored size. -/
theorem C2_bounded_cache (V : Type) (P : CacheParams V)
    (ops : List (CacheOp V)) :
    (cmRun P ops).lru.length ≤ P.maxCount ∧
      lruTotalSize (cmRun P ops).lru ≤ P.maxBytes := by
  rw [cmRun]
  have : ∀ (l : List (CacheOp V)) (st : CMState V), capsLru P st.lru →
      capsLru P (l.foldl (cmStep P) st).lru := by
    intro l
    induction l with
    | nil => exact fun st h => h
    | cons op rest ih =>
      intro st h
      exact ih _ (capsLru_cmStep h op)
  exact this ops cmInit ⟨Nat.zero_le _, Nat.zero_le _⟩

/-! ## TTL expiry (C3) -/

lemma lruFind_lruDelete {V : Type} (k : String) (l : Lru V) :
    lruFind k (lruDelete k l) = none := by
  rw [lruFind, lruDelete, List.find?_eq_none]
  intro x hx
  have := (List.mem_filter.mp hx).2
  simp only [Bool.not_eq_true'] at this
  simp [this]

/-- C3 counterexample.  With `ttl = 10`, an entry stored at time 0 and
touched by a successful `get` at time 5 (which resets its age, because
the constructor sets `updateAgeOnGet: true`), a lookup at time
`12 > createdAt + ttl = 10` still returns the value — not a miss. -/
theorem C3_ttl_expiry_counterexample :
    ((cmGet pExact 12 "k" (cmRun pExact [.set 0 "k" 42, .get 5 "k"])).1 =
        some 42) ∧
      ((lruFind "k" (cmRun pExact [.set 0 "k" 42, .get 5 "k"]).lru).map
        (fun x => x.entry.timestamp)) = some 0 ∧
      0 + pExact.ttl < 12 := by
  refine ⟨?_, ?_, ?_⟩ <;> decide

/-- C3 (amended).  Under the exact strategy, a lookup of a key whose slot
has age start `s` — its `createdAt`, unless a later successful `get`
(which resets the age, `updateAgeOnGet: true`) or a later `set` refreshed
it — at any time strictly greater than `s + ttl` returns a miss, deletes
the entry, and counts one miss. -/
theorem C3_ttl_lazy_expiry (V : Type) (P : CacheParams V) (st : CMState V)
    (now : Nat) (k : String) (x : LruItem V)
    (hstrat : P.strategy = .exact)
    (hfind : lruFind k st.lru = some x)
    (hstale : x.start + P.ttl < now) :
    (cmGet P now k st).1 = none ∧
      lruFind k ((cmGet P now k st).2).lru = none ∧
      (cmGet P now k st).2.misses = st.misses + 1 := by
  have hget : lruGet P now k st.lru = (none, lruDelete k st.lru) := by
    simp only [lruGet, hfind, if_pos hstale]
  have hcm : cmGet P now k st =
      (none, { st with
               total := st.total + 1
               lru := lruDelete k st.lru
               misses := st.misses + 1 }) := by
    simp only [cmGet, hstrat, getExact, hget]
  rw [hcm]
  exact ⟨rfl, lruFind_lruDelete k st.lru, rfl⟩

/-- Witness for C3 at a concrete input: entry stored at time 0,
untouched, looked up at time 12 with `ttl = 10`. -/
theorem C3_ttl_lazy_expiry_witness :
    pExact.strategy = .exact ∧
      lruFind "k" (cmRun pExact [.set 0 "k" 42]).lru =
        some ⟨"k", ⟨"k", 42, 0, 0, none⟩, 1, 0⟩ ∧
      (0 : Nat) + pExact.ttl < 12 ∧
      ((cmGet pExact 12 "k" (cmRun pExact [.set 0 "k" 42])).1 = none ∧
        lruFind "k" ((cmGet pExact 12 "k"
          (cmRun pExact [.set 0 "k" 42])).2).lru = none ∧
        (cmGet pExact 12 "k" (cmRun pExact [.set 0 "k" 42])).2.misses =
          (cmRun pExact [.set 0 "k" 42]).misses + 1) :=
  ⟨by decide, by decide, by decide,
    C3_ttl_lazy_expiry Nat pExact (cmRun pExact [.set 0 "k" 42]) 12 "k"
      ⟨"k", ⟨"k", 42, 0, 0, none⟩, 1, 0⟩ (by decide) (by decide) (by decide)⟩

/-! ## Hit/miss counter accounting (C9) -/

/-- Every slot surviving an `lruGet` carries a key that was already in
the store. -/
lemma lruGet_keys {V : Type} (P : CacheParams V) (now : Nat) (k : String)
    (l : Lru V) :
    ∀ x ∈ (lruGet P now k l).2, ∃ y ∈ l, x.key = y.key := by
  intro x hx
  rcases hf : lruFind k l with _ | z
  · simp only [lruGet, hf] at hx
    exact ⟨x, hx, rfl⟩
  · obtain ⟨hzmem, hzkey⟩ := lruFind_mem hf
    by_cases hstale : z.start + P.ttl < now
    · simp only [lruGet, hf, if_pos hstale] at hx
      exact ⟨x, (List.mem_filter.mp hx).1, rfl⟩
    · simp only [lruGet, hf, if_neg hstale] at hx
      rcases List.mem_append.mp hx with hdel | hnew
      · exact ⟨x, (List.mem_filter.mp hdel).1, rfl⟩
      · rcases List.mem_singleton.mp hnew with rfl
        exact ⟨z, hzmem, rfl⟩

/-- The semantic phase after an exact miss bumps exactly one of the two
counters. -/
lemma semanticScan_counters {V : Type} (P : CacheParams V) (now : Nat)
    (k : String) (st : CMState V) :
    (semanticScan P now k st).2.hits + (semanticScan P now k st).2.misses =
      st.hits + st.misses + 1 := by
  rcases hb : scanBest P.threshold (P.embed k) st.embeddings with _ | bk
  · simp only [semanticScan, hb]
    omega
  · rcases hg : (lruGet P now bk st.lru).1 with _ | e
    · simp only [semanticScan, hb, hg]
      omega
    · simp only [semanticScan, hb, hg]
      omega

/-- The exact phase bumps exactly one of the two counters. -/
lemma getExact_counters {V : Type} (P : CacheParams V) (now : Nat)
    (k : String) (st : CMState V) :
    (getExact P now k st).2.hits + (getExact P now k st).2.misses =
      st.hits + st.misses + 1 := by
  rcases hr : (lruGet P now k st.lru).1 with _ | e
  · simp only [getExact, hr]
    omega
  · simp only [getExact, hr]
    omega

/-- Along the fuzzy candidate loop, well-formed keys (three
`:`-separated segments) rule out the thrown branch, and exactly one
counter is bumped at termination. -/
lemma fuzzyLoop_counters {V : Type} (P : CacheParams V) (now : Nat)
    (qp : List String) (hqp : 3 ≤ qp.length) :
    ∀ (ks : List String) (st : CMState V),
      (∀ ck ∈ ks, 3 ≤ (splitColon ck).length) →
      ∃ v st', fuzzyLoop P now qp ks st = .ret v st' ∧
        st'.hits + st'.misses = st.hits + st.misses + 1 ∧
        st'.total = st.total := by
  intro ks
  induction ks with
  | nil =>
    intro st _
    exact ⟨none, _, rfl, by simp only; omega, rfl⟩
  | cons ck rest ih =>
    intro st hwf
    have hck : 3 ≤ (splitColon ck).length := hwf ck (List.mem_cons_self _ _)
    have hrest : ∀ c ∈ rest, 3 ≤ (splitColon c).length :=
      fun c hc => hwf c (List.mem_cons_of_mem _ hc)
    simp only [fuzzyLoop]
    by_cases hseg : qp.get? 1 = (splitColon ck).get? 1
    · rw [if_pos hseg]
      rcases hq2 : qp.get? 2 with _ | h1
      · exfalso
        rw [List.get?_eq_none] at hq2
        omega
      · rcases hc2 : (splitColon ck).get? 2 with _ | h2
        · exfalso
          rw [List.get?_eq_none] at hc2
          omega
        · simp only
          rcases hsim : hashSimilarity h1 h2 with _ | sim
          · exact ih st hrest
          · simp only
            by_cases hth : P.threshold ≤ sim
            · rw [if_pos hth]
              rcases hg : (lruGet P now ck st.lru).1 with _ | e
              · simp only [hg]
                exact ih _ hrest
              · simp only [hg]
                exact ⟨_, _, rfl, by simp only; omega, rfl⟩
            · rw [if_neg hth]
              exact ih st hrest
    · rw [if_neg hseg]
      exact ih st hrest

/-- C9 counterexample.  A single fuzzy lookup on a fresh manager counts
one lookup (`total = 1`) but increments the miss counter twice (once in
the exact phase and once at the end of the fuzzy loop):
`hits + misses = 2 ≠ 1`. -/
theorem C9_hit_miss_accounting_counterexample :
    ((cmGet pFuzzy 0 "analysis:x:abc" cmInit).2.hits +
        (cmGet pFuzzy 0 "analysis:x:abc" cmInit).2.misses = 2) ∧
      (cmGet pFuzzy 0 "analysis:x:abc" cmInit).2.total = 1 ∧
      (2 : Nat) ≠ 1 := by
  refine ⟨?_, ?_, ?_⟩ <;> decide

/-- C9 (amended).  Per lookup (with truthy cached values, as all cached
analysis results are): under `exact` exactly one of the hit/miss
counters is incremented; under `semantic`, and under `fuzzy` when all
keys are well-formed (three `:`-separated segments, as `generateKey`
produces), a lookup whose exact phase hits increments one counter, and
any other lookup increments two — one for the exact-phase miss and one
for the second-phase outcome.  Hence `hits + misses` counts phases, not
lookups. -/
theorem C9_per_lookup_counter_delta (V : Type) (P : CacheParams V)
    (st : CMState V) (now : Nat) (k : String)
    (htr : ∀ v, P.truthy v = true) :
    (P.strategy = .exact →
      (cmGet P now k st).2.hits + (cmGet P now k st).2.misses =
        st.hits + st.misses + 1) ∧
    (P.strategy = .semantic →
      (cmGet P now k st).2.hits + (cmGet P now k st).2.misses =
        st.hits + st.misses +
          (if (lruGet P now k st.lru).1.isSome then 1 else 2)) ∧
    (P.strategy = .fuzzy →
      3 ≤ (splitColon k).length →
      (∀ x ∈ st.lru, 3 ≤ (splitColon x.key).length) →
      (cmGet P now k st).2.hits + (cmGet P now k st).2.misses =
        st.hits + st.misses +
          (if (lruGet P now k st.lru).1.isSome then 1 else 2)) := by
  refine ⟨?_, ?_, ?_⟩
  · intro hstrat
    simp only [cmGet, hstrat]
    exact getExact_counters P now k _
  · intro hstrat
    rcases hr : (lruGet P now k st.lru).1 with _ | e
    · simp only [cmGet, hstrat, getSemantic, getExact, hr]
      rw [semanticScan_counters]
      simp only [hr, Option.isSome_none, Bool.false_eq_true, if_false]
      omega
    · simp only [cmGet, hstrat, getSemantic, getExact, hr, htr e.value,
        if_true, Option.isSome_some]
      omega
  · intro hstrat hk hkeys
    rcases hr : (lruGet P now k st.lru).1 with _ | e
    · simp only [cmGet, hstrat, getFuzzy, getExact, hr]
      have hkeys2 : ∀ ck ∈ lruKeysMRU (lruGet P now k st.lru).2,
          3 ≤ (splitColon ck).length := by
        intro ck hck
        rw [lruKeysMRU, List.mem_reverse] at hck
        obtain ⟨x, hx, rfl⟩ := List.mem_map.mp hck
        obtain ⟨y, hy, hxy⟩ := lruGet_keys P now k st.lru x hx
        rw [hxy]
        exact hkeys y hy
      obtain ⟨v, st', heq, hdelta, -⟩ :=
        fuzzyLoop_counters P now (splitColon k) hk
          (lruKeysMRU (lruGet P now k st.lru).2) _ hkeys2
      rw [heq]
      simp only [fuzzyOutState] at hdelta ⊢
      simp only [hr, Option.isSome_none, Bool.false_eq_true, if_false]
      omega
    · simp only [cmGet, hstrat, getFuzzy, getExact, hr, htr e.value,
        if_true, Option.isSome_some]
      omega

/-- Witness for C9 at a concrete input (fuzzy strategy, well-formed
keys): the per-lookup counter deltas hold on a store with one entry. -/
theorem C9_per_lookup_counter_delta_witness :
    (∀ v, pFuzzy.truthy v = true) ∧
      ((pFuzzy.strategy = .exact →
        (cmGet pFuzzy 1 "analysis:t:x" (cmRun pFuzzy [.set 0 "analysis:t:y" 7])).2.hits +
          (cmGet pFuzzy 1 "analysis:t:x" (cmRun pFuzzy [.set 0 "analysis:t:y" 7])).2.misses =
          (cmRun pFuzzy [.set 0 "analysis:t:y" 7]).hits +
            (cmRun pFuzzy [.set 0 "analysis:t:y" 7]).misses + 1) ∧
      (pFuzzy.strategy = .semantic →
        (cmGet pFuzzy 1 "analysis:t:x" (cmRun pFuzzy [.set 0 "analysis:t:y" 7])).2.hits +
          (cmGet pFuzzy 1 "analysis:t:x" (cmRun pFuzzy [.set 0 "analysis:t:y" 7])).2.misses =
          (cmRun pFuzzy [.set 0 "analysis:t:y" 7]).hits +
            (cmRun pFuzzy [.set 0 "analysis:t:y" 7]).misses +
            (if (lruGet pFuzzy 1 "analysis:t:x"
                (cmRun pFuzzy [.set 0 "analysis:t:y" 7]).lru).1.isSome then 1 else 2)) ∧
      (pFuzzy.strategy = .fuzzy →
        3 ≤ (splitColon "analysis:t:x").length →
        (∀ x ∈ (cmRun pFuzzy [.set 0 "analysis:t:y" 7]).lru,
          3 ≤ (splitColon x.key).length) →
        (cmGet pFuzzy 1 "analysis:t:x" (cmRun pFuzzy [.set 0 "analysis:t:y" 7])).2.hits +
          (cmGet pFuzzy 1 "analysis:t:x" (cmRun pFuzzy [.set 0 "analysis:t:y" 7])).2.misses =
          (cmRun pFuzzy [.set 0 "analysis:t:y" 7]).hits +
            (cmRun pFuzzy [.set 0 "analysis:t:y" 7]).misses +
            (if (lruGet pFuzzy 1 "analysis:t:x"
                (cmRun pFuzzy [.set 0 "analysis:t:y" 7]).lru).1.isSome then 1 else 2))) :=
  ⟨fun v => rfl,
    C9_per_lookup_counter_delta Nat pFuzzy
      (cmRun pFuzzy [.set 0 "analysis:t:y" 7]) 1 "analysis:t:x"
      (fun v => rfl)⟩

/-! ## Semantic threshold boundary (C8) -/

lemma scanBest_fold_isSome (θ : ℚ) (q : List ℚ) :
    ∀ (embs : List (String × List ℚ)) (acc : ℚ × Option String),
      (acc.2 = none → acc.1 = 0) →
      ((∃ p ∈ embs, 0 < cosineSimilarity q p.2 ∧ θ ≤ cosineSimilarity q p.2) ∨
        acc.2.isSome = true) →
      ((embs.foldl (fun acc e =>
          let s := cosineSimilarity q e.2
          if acc.1 < s ∧ θ ≤ s then (s, some e.1) else acc) acc).2).isSome
        = true := by
  intro embs
  induction embs with
  | nil =>
    rintro acc hinv (⟨p, hp, -⟩ | hsome)
    · simp at hp
    · simpa using hsome
  | cons e rest ih =>
    rintro acc hinv hdisj
    rw [List.foldl_cons]
    by_cases hcond : acc.1 < cosineSimilarity q e.2 ∧ θ ≤ cosineSimilarity q e.2
    · rw [if_pos hcond]
      exact ih _ (by simp) (Or.inr (by simp))
    · rw [if_neg hcond]
      rcases hdisj with ⟨p, hp, hpos, hθp⟩ | hsome
      · rcases List.mem_cons.mp hp with rfl | hprest
        · rcases hacc : acc.2 with _ | b
          · exfalso
            exact hcond ⟨by rw [hinv hacc]; exact hpos, hθp⟩
          · exact ih _ hinv (Or.inr (by simp [hacc]))
        · exact ih _ hinv (Or.inl ⟨p, hprest, hpos, hθp⟩)
      · exact ih _ hinv (Or.inr hsome)

lemma scanBest_fold_mem (θ : ℚ) (q : List ℚ) (bk : String) :
    ∀ (embs : List (String × List ℚ)) (acc : ℚ × Option String),
      ((embs.foldl (fun acc e =>
          let s := cosineSimilarity q e.2
          if acc.1 < s ∧ θ ≤ s then (s, some e.1) else acc) acc).2) = some bk →
      acc.2 = some bk ∨ bk ∈ embs.map (·.1) := by
  intro embs
  induction embs with
  | nil =>
    intro acc h
    exact Or.inl h
  | cons e rest ih =>
    intro acc h
    rw [List.foldl_cons] at h
    by_cases hcond : acc.1 < cosineSimilarity q e.2 ∧ θ ≤ cosineSimilarity q e.2
    · rw [if_pos hcond] at h
      rcases ih _ h with heq | hmem
      · injection heq with heq
        exact Or.inr (by simp [← heq])
      · exact Or.inr (List.mem_cons_of_mem _ hmem)
    · rw [if_neg hcond] at h
      rcases ih _ h with heq | hmem
      · exact Or.inl heq
      · exact Or.inr (List.mem_cons_of_mem _ hmem)

/-- C8.  Under the semantic strategy, when the exact phase misses, every
indexed entry is still present and unexpired, and some stored embedding's
cosine similarity to the query embedding is exactly the (positive)
`similarityThreshold`, the lookup is a hit: the boundary is inclusive
(the scan keeps candidates with `similarity >= threshold`). -/
theorem C8_semantic_threshold_inclusive (V : Type) (P : CacheParams V)
    (st : CMState V) (now : Nat) (k k' : String) (e' : List ℚ)
    (hstrat : P.strategy = .semantic)
    (hmiss : lruFind k st.lru = none)
    (hpos : 0 < P.threshold)
    (hmem : (k', e') ∈ st.embeddings)
    (hsim : cosineSimilarity (P.embed k) e' = P.threshold)
    (hfresh : ∀ p ∈ st.embeddings, freshIn P now st.lru p.1 = true) :
    ((cmGet P now k st).1).isSome = true ∧
      (cmGet P now k st).2.hits = st.hits + 1 := by
  have hget : lruGet P now k st.lru = (none, st.lru) := by
    simp only [lruGet, hmiss]
  have hscan : (scanBest P.threshold (P.embed k) st.embeddings).isSome = true := by
    rw [scanBest]
    exact scanBest_fold_isSome P.threshold (P.embed k) st.embeddings (0, none)
      (fun _ => rfl)
      (Or.inl ⟨(k', e'), hmem, by rw [hsim]; exact hpos, by rw [hsim]⟩)
  obtain ⟨bk, hbk⟩ := Option.isSome_iff_exists.mp hscan
  have hbkmem : bk ∈ st.embeddings.map (·.1) := by
    rcases scanBest_fold_mem P.threshold (P.embed k) bk st.embeddings (0, none)
      (by rw [scanBest] at hbk; exact hbk) with h0 | hm
    · exact absurd h0 (by simp)
    · exact hm
  obtain ⟨p, hpmem, hpkey⟩ := List.mem_map.mp hbkmem
  have hfr := hfresh p hpmem
  rw [hpkey] at hfr
  rcases hffind : lruFind bk st.lru with _ | x
  · rw [freshIn, hffind] at hfr
    simp at hfr
  · rw [freshIn, hffind] at hfr
    simp only [Bool.not_eq_true', decide_eq_false_iff_not] at hfr
    have hbget : (lruGet P now bk st.lru).1 = some x.entry := by
      simp only [lruGet, hffind, if_neg hfr]
    constructor
    · simp only [cmGet, hstrat, getSemantic, getExact, hget, semanticScan,
        hbk, hbget]
      rfl
    · simp only [cmGet, hstrat, getSemantic, getExact, hget, semanticScan,
        hbk, hbget]

/-- Witness for C8 at a concrete input: one stored entry whose embedding
has cosine similarity exactly `1/2 = similarityThreshold` to the query
embedding; the lookup hits. -/
theorem C8_semantic_threshold_inclusive_witness :
    pSemantic.strategy = .semantic ∧
      lruFind "q" (cmRun pSemantic [.set 0 "c" 7]).lru = none ∧
      (0 : ℚ) < pSemantic.threshold ∧
      ("c", [mkRat 1 2]) ∈ (cmRun pSemantic [.set 0 "c" 7]).embeddings ∧
      cosineSimilarity (pSemantic.embed "q") [mkRat 1 2] = pSemantic.threshold ∧
      (∀ p ∈ (cmRun pSemantic [.set 0 "c" 7]).embeddings,
        freshIn pSemantic 3 (cmRun pSemantic [.set 0 "c" 7]).lru p.1 = true) ∧
      (((cmGet pSemantic 3 "q" (cmRun pSemantic [.set 0 "c" 7])).1).isSome = true ∧
        (cmGet pSemantic 3 "q" (cmRun pSemantic [.set 0 "c" 7])).2.hits =
          (cmRun pSemantic [.set 0 "c" 7]).hits + 1) :=
  ⟨by decide, by decide, by decide, by decide, by decide, by decide,
    C8_semantic_threshold_inclusive Nat pSemantic
      (cmRun pSemantic [.set 0 "c" 7]) 3 "q" "c" [mkRat 1 2]
      (by decide) (by decide) (by decide) (by decide) (by decide) (by decide)⟩

/-! ## C4: cache-key canonicalization (`generateKey`) -/

lemma insertKeep_perm {α : Type} (keep : α → α → Bool) (x : α) (l : List α) :
    (insertKeep keep x l).Perm (x :: l) := by
  induction l with
  | nil => exact List.Perm.refl _
  | cons y ys ih =>
      rw [insertKeep]
      by_cases h : keep y x
      · rw [if_pos h]
        exact (ih.cons y).trans (List.Perm.swap x y ys)
      · rw [if_neg h]

lemma foldl_insertKeep_perm {α : Type} (keep : α → α → Bool) (l acc : List α) :
    (l.foldl (fun acc x => insertKeep keep x acc) acc).Perm (l ++ acc) := by
  induction l generalizing acc with
  | nil => exact List.Perm.refl _
  | cons x t ih =>
      rw [List.foldl_cons]
      refine (ih (insertKeep keep x acc)).trans ?_
      refine ((insertKeep_perm keep x acc).append_left t).trans ?_
      exact List.perm_middle

lemma stableSortBy_perm {α : Type} (keep : α → α → Bool) (l : List α) :
    (stableSortBy keep l).Perm l := by
  have h := foldl_insertKeep_perm keep l []
  rw [List.append_nil] at h
  exact h

lemma mem_insertKeep {α : Type} (keep : α → α → Bool) (x a : α) (l : List α) :
    a ∈ insertKeep keep x l ↔ a = x ∨ a ∈ l := by
  rw [(insertKeep_perm keep x l).mem_iff, List.mem_cons]

lemma insertKeep_sorted {α : Type} (rep : α → String) (x : α) (l : List α)
    (h : l.Pairwise (fun a b => rep a ≤ rep b)) :
    (insertKeep (fun y x => decide (rep y ≤ rep x)) x l).Pairwise
      (fun a b => rep a ≤ rep b) := by
  induction l with
  | nil => simp [insertKeep]
  | cons y ys ih =>
      rw [List.pairwise_cons] at h
      rw [insertKeep]
      by_cases hyx : rep y ≤ rep x
      · rw [if_pos (by simpa using hyx)]
        rw [List.pairwise_cons]
        refine ⟨fun b hb => ?_, ih h.2⟩
        rcases (mem_insertKeep _ x b ys).mp hb with hbx | hby
        · exact hbx ▸ hyx
        · exact h.1 b hby
      · rw [if_neg (by simpa using hyx)]
        have hxy : rep x ≤ rep y := le_of_not_le hyx
        rw [List.pairwise_cons]
        refine ⟨fun b hb => ?_, List.pairwise_cons.mpr h⟩
        rcases List.mem_cons.mp hb with hby | hbys
        · exact hby ▸ hxy
        · exact hxy.trans (h.1 b hbys)

lemma stableSortBy_sorted {α : Type} (rep : α → String) (l : List α) :
    (stableSortBy (fun y x => decide (rep y ≤ rep x)) l).Pairwise
      (fun a b => rep a ≤ rep b) := by
  have aux : ∀ acc : List α, acc.Pairwise (fun a b => rep a ≤ rep b) →
      (l.foldl (fun acc x =>
        insertKeep (fun y x => decide (rep y ≤ rep x)) x acc) acc).Pairwise
        (fun a b => rep a ≤ rep b) := by
    induction l with
    | nil => exact fun acc h => h
    | cons x t ih =>
        intro acc h
        rw [List.foldl_cons]
        exact ih _ (insertKeep_sorted rep x acc h)
  exact aux [] (List.Pairwise.nil)

/-- Sorting by a key with pairwise-distinct representations is
canonical: permuted lists sort to the same list. -/
lemma stableSortBy_eq_of_perm {α : Type} (rep : α → String) {l1 l2 : List α}
    (hp : l1.Perm l2) (hd : l1.Pairwise (fun a b => rep a ≠ rep b)) :
    stableSortBy (fun y x => decide (rep y ≤ rep x)) l1 =
      stableSortBy (fun y x => decide (rep y ≤ rep x)) l2 := by
  have hsym : Symmetric (fun a b : α => rep a ≠ rep b) :=
    fun a b h => fun e => h e.symm
  have hperm : (stableSortBy (fun y x => decide (rep y ≤ rep x)) l1).Perm
      (stableSortBy (fun y x => decide (rep y ≤ rep x)) l2) :=
    ((stableSortBy_perm _ l1).trans hp).trans (stableSortBy_perm _ l2).symm
  have hd1 : (stableSortBy (fun y x => decide (rep y ≤ rep x)) l1).Pairwise
      (fun a b => rep a ≠ rep b) :=
    ((stableSortBy_perm _ l1).pairwise_iff (fun h => hsym h)).mpr hd
  have hd2 : (stableSortBy (fun y x => decide (rep y ≤ rep x)) l2).Pairwise
      (fun a b => rep a ≠ rep b) :=
    ((stableSortBy_perm _ l2).pairwise_iff (fun h => hsym h)).mpr
      ((hp.pairwise_iff (fun h => hsym h)).mp hd)
  have hs1 := (stableSortBy_sorted rep l1).and hd1
  have hs2 := (stableSortBy_sorted rep l2).and hd2
  haveI : IsAntisymm α (fun a b => rep a < rep b) :=
    ⟨fun a b h1 h2 => absurd (h1.trans h2) (lt_irrefl _)⟩
  refine List.eq_of_perm_of_sorted (r := fun a b => rep a < rep b) hperm ?_ ?_
  · exact hs1.imp (fun h => lt_of_le_of_ne h.1 h.2)
  · exact hs2.imp (fun h => lt_of_le_of_ne h.1 h.2)

lemma dedupKeys_eq_self {l : List (String × JVal)}
    (h : (l.map (·.1)).Nodup) : dedupKeys l = l := by
  induction l with
  | nil => rfl
  | cons e rest ih =>
      rcases e with ⟨k, v⟩
      rw [List.map_cons, List.nodup_cons] at h
      rw [dedupKeys, ih h.2, List.filter_eq_self.mpr]
      intro a ha
      simp only [Bool.not_eq_eq_eq_not, Bool.not_true, beq_eq_false_iff_ne]
      intro hak
      exact h.1 (hak ▸ List.mem_map_of_mem (·.1) ha)

lemma normEntries_eq_map (l : List (String × JVal)) :
    normEntries l = l.map (fun e => (e.1, normField e.2)) := by
  induction l with
  | nil => rfl
  | cons e rest ih =>
      rcases e with ⟨k, v⟩
      rw [normEntries, ih, List.map_cons]

lemma normEntries_keys (l : List (String × JVal)) :
    (normEntries l).map (·.1) = l.map (·.1) := by
  rw [normEntries_eq_map, List.map_map]
  rfl

/-- Normalizing an object body is invariant under permuting entries with
unique keys, once the entry values are known to normalize equally. -/
lemma normObj_step {kvs mid kvs' : List (String × JVal)}
    (hne : normEntries kvs = normEntries mid)
    (hkeys : kvs.map (·.1) = mid.map (·.1))
    (hp : mid.Perm kvs') (hnd : (kvs.map (·.1)).Nodup) :
    sortEntriesByKey (dedupKeys (normEntries kvs)) =
      sortEntriesByKey (dedupKeys (normEntries kvs')) := by
  have hndmid : (mid.map (·.1)).Nodup := hkeys ▸ hnd
  have hnd' : (kvs'.map (·.1)).Nodup := ((hp.map (·.1)).nodup_iff).mp hndmid
  have hn1 : ((normEntries kvs).map (·.1)).Nodup := by
    rw [normEntries_keys]; exact hnd
  have hn2 : ((normEntries kvs').map (·.1)).Nodup := by
    rw [normEntries_keys]; exact hnd'
  rw [dedupKeys_eq_self hn1, dedupKeys_eq_self hn2]
  have hperm : (normEntries kvs).Perm (normEntries kvs') := by
    rw [hne, normEntries_eq_map, normEntries_eq_map]
    exact hp.map _
  have hdist : (normEntries kvs).Pairwise (fun a b => a.1 ≠ b.1) :=
    List.pairwise_map.mp hn1
  exact stableSortBy_eq_of_perm (fun e => e.1) hperm hdist

mutual

/-- `ValRel`-related values normalize to the same value. -/
lemma valRel_norm : ∀ {v w : JVal}, ValRel v w → normField v = normField w
  | _, _, .refl _ => rfl
  | _, _, .str a b h => by
      simp only [normField]
      rw [h]
  | _, _, .arr xs ys hp hd => by
      simp only [normField, jsSortArr]
      exact congrArg JVal.arr (stableSortBy_eq_of_perm jsToString hp hd)
  | _, _, .obj kvs mid kvs' he hp hnd => by
      have h2 := entriesRel_norm he
      simp only [normField]
      exact congrArg JVal.obj (normObj_step h2.1 h2.2 hp hnd)

/-- `EntriesRel`-related entry lists normalize equally and share keys. -/
lemma entriesRel_norm : ∀ {l m : List (String × JVal)}, EntriesRel l m →
    normEntries l = normEntries m ∧ l.map (·.1) = m.map (·.1)
  | _, _, .nil => ⟨rfl, rfl⟩
  | _, _, .cons k v w rest rest' hvw hr => by
      have h1 := valRel_norm hvw
      have h2 := entriesRel_norm hr
      constructor
      · rw [normEntries, normEntries, h1, h2.1]
      · rw [List.map_cons, List.map_cons, h2.2]

end

/-- `ObjRel`-related input objects normalize identically. -/
lemma normalizeInputs_respects {l1 l2 : List (String × JVal)}
    (h : ObjRel l1 l2) : normalizeInputs l1 = normalizeInputs l2 := by
  rcases h with ⟨mid, he, hp, hnd⟩
  have h2 := entriesRel_norm he
  exact normObj_step h2.1 h2.2 hp hnd

/-- **C4 counterexample.**  Two requests whose inputs differ only by the
leading whitespace of a string value produce different fingerprints,
because the string sits inside an array-valued field: `normalizeInputs`
sorts arrays but never trims (or otherwise normalizes) their elements. -/
theorem C4_array_whitespace_counterexample :
    generateKey ⟨"t", [("a", .arr [.str " x"])], none⟩ ≠
      generateKey ⟨"t", [("a", .arr [.str "x"])], none⟩ := by
  decide

/-- **C4** (amended).  `generateKey` is a pure function of the request,
hence deterministic; and the fingerprint is invariant under the
canonicalizations the code actually performs: permuting object entries
(unique keys) at any depth outside arrays, replacing a string value held
directly by an object field (outside arrays) by a trim-equivalent one,
and permuting the elements of an array-valued field provided their JS
string representations are pairwise distinct.  Whitespace of strings
inside arrays is NOT normalized (see the counterexample), and array
elements with equal string representations keep their relative order
under the stable sort, so arbitrary list reordering is not covered. -/
theorem C4_fingerprint_canonicalization {t : String}
    {i1 i2 : List (String × JVal)} {o1 o2 : Option (List (String × JVal))}
    (hi : ObjRel i1 i2) (ho : OptRel o1 o2) :
    generateKey ⟨t, i1, o1⟩ = generateKey ⟨t, i2, o2⟩ := by
  have h1 : normalizeInputs i1 = normalizeInputs i2 := normalizeInputs_respects hi
  have h2 : normalizeOptions o1 = normalizeOptions o2 := by
    cases o1 with
    | none =>
        cases o2 with
        | none => rfl
        | some b => exact absurd ho (by simp [OptRel])
    | some a =>
        cases o2 with
        | none => exact absurd ho (by simp [OptRel])
        | some b =>
            simp only [normalizeOptions]
            exact normalizeInputs_respects ho
  simp only [generateKey, h1, h2]

/-- **C4 witness.**  Concrete instance: permuting the two object keys
and trimming an object-level string value leaves the fingerprint
unchanged. -/
theorem C4_fingerprint_canonicalization_witness :
    ObjRel [("b", .str " x "), ("a", .num 1)]
      [("a", .num 1), ("b", .str "x")] ∧
    generateKey ⟨"t", [("b", .str " x "), ("a", .num 1)], none⟩ =
      generateKey ⟨"t", [("a", .num 1), ("b", .str "x")], none⟩ := by
  have hobj : ObjRel [("b", .str " x "), ("a", .num 1)]
      [("a", .num 1), ("b", .str "x")] := by
    refine ⟨[("b", .str "x"), ("a", .num 1)], ?_, ?_, by decide⟩
    · exact .cons "b" _ _ _ _ (.str " x " "x" (by decide))
        (.cons "a" _ _ _ _ (.refl _) .nil)
    · exact List.Perm.swap _ _ _
  exact ⟨hobj, C4_fingerprint_canonicalization hobj trivial⟩


end AnalysisToolkit
